import Mathlib

/-! CloudEvents v0.1 HTTP codec and tracing extension

A shallow embedding of `pkg/cloudevents/transport/http/codec_v01.go` and
`pkg/cloudevents/extensions/distributed_tracing_extension.go`.

Conventions of the embedding:

* a Go `string` is a list of Unicode code points (`Str`); where the source
  slices or measures a string by bytes, the UTF-8 width of every code point
  is counted (`byteLen`);
* a Go `map[string]T` is an association list (`GoMap`): `GoMap.get` reads the
  entry of a key, `GoMap.set` overwrites it or adds it.  The order in which a
  `range` statement visits a map is not fixed by Go, it is supplied by the
  environment (`Env.rangeHeader`, `Env.rangeExtensions`) as an arbitrary
  permutation of the entries;
* a call that can fail returns `Except Fault`, a run-time panic being a
  `Fault` of its own;
* functions and types that the two files import from elsewhere (package
  `canonical`, `encoding/json`, `unicode`, the payload marshaller) are fields
  of the environment `Env`; the target of the tracing extension and what it
  needs of `fmt` are fields of `Tracing`.
-/

namespace CloudEvents

/-! ## Strings and bytes -/

/-- A Go string, as its sequence of code points. -/
abbrev Str := List Char

/-- Number of bytes of the UTF-8 encoding of one code point. -/
def utf8Width (c : Char) : Nat :=
  if c.toNat < 0x80 then 1
  else if c.toNat < 0x800 then 2
  else if c.toNat < 0x10000 then 3
  else 4

/-- Go `len(s)` for a string: its length in bytes. -/
def byteLen : Str → Nat
  | [] => 0
  | c :: cs => utf8Width c + byteLen cs

/-- The ASCII range test `lo <= c && c <= hi` on a code point. -/
def inRange (lo hi : Nat) (c : Char) : Bool :=
  decide (lo ≤ c.toNat) && decide (c.toNat ≤ hi)

/-- Test `'a' <= c && c <= 'z'`. -/
def isLowerASCII (c : Char) : Bool := inRange 97 122 c

/-- Test `'A' <= c && c <= 'Z'`. -/
def isUpperASCII (c : Char) : Bool := inRange 65 90 c

/-- Test `'0' <= c && c <= '9'`. -/
def isDigitASCII (c : Char) : Bool := inRange 48 57 c

/-- The step `c -= 'a' - 'A'` on a lower-case ASCII letter. -/
def upperASCII (c : Char) : Char :=
  if isLowerASCII c then Char.ofNat (c.toNat - 32) else c

/-- The step `c += 'a' - 'A'` on an upper-case ASCII letter. -/
def lowerASCII (c : Char) : Char :=
  if isUpperASCII c then Char.ofNat (c.toNat + 32) else c

/-! ## Go maps -/

/-- A Go `map[string]β`. -/
abbrev GoMap (β : Type) := List (Str × β)

namespace GoMap

/-- Map read `m[k]` with its presence flag. -/
def get {β : Type} : GoMap β → Str → Option β
  | [], _ => none
  | (k, v) :: m, key => if k = key then some v else get m key

/-- Map write `m[k] = v`. -/
def set {β : Type} : GoMap β → Str → β → GoMap β
  | [], key, val => [(key, val)]
  | (k, v) :: m, key, val => if k = key then (k, val) :: m else (k, v) :: set m key val

/-- The keys of the map. -/
def keys {β : Type} (m : GoMap β) : List Str := m.map Prod.fst

end GoMap

/-! ## `net/textproto` and `net/http` headers -/

/-- The table `isTokenTable` of `net/textproto`: the bytes allowed in a header
field name, the token characters of RFC 7230. -/
def validHeaderFieldByte (c : Char) : Bool :=
  isLowerASCII c || isUpperASCII c || isDigitASCII c ||
    decide (c.toNat ∈ [33, 35, 36, 37, 38, 39, 42, 43, 45, 46, 94, 95, 96, 124, 126])

/-- The canonicalising loop of `canonicalMIMEHeaderKey`: upper case at the
start and after each dash, lower case elsewhere. -/
def canonLoop : Bool → Str → Str
  | _, [] => []
  | upper, c :: cs =>
    let d := if upper && isLowerASCII c then upperASCII c
      else if !upper && isUpperASCII c then lowerASCII c
      else c
    d :: canonLoop (d == '-') cs

/-- Function `textproto.CanonicalMIMEHeaderKey`: a key holding a byte that is
not valid in a field name is returned unchanged, any other is canonicalised. -/
def CanonicalMIMEHeaderKey (s : Str) : Str :=
  if s.all validHeaderFieldByte then canonLoop true s else s

/-- Type `http.Header`: `map[string][]string`. -/
abbrev Header := GoMap (List Str)

/-- Method `Header.Get`: first value under the canonical form of the key, or
the empty string. -/
def Header.Get (h : Header) (key : Str) : Str :=
  match GoMap.get h (CanonicalMIMEHeaderKey key) with
  | some (v :: _) => v
  | _ => []

/-- Method `Header.Set`: the single value under the canonical form of the key. -/
def Header.Set (h : Header) (key value : Str) : Header :=
  GoMap.set h (CanonicalMIMEHeaderKey key) [value]

/-! ## Data model -/

/-- A Go `interface{}` value: `nil`, a string, a byte slice, or a value of
some other dynamic type (`X`, e.g. what `encoding/json` decodes a number,
boolean, array or object to). -/
inductive Dyn (X : Type) where
  | nil : Dyn X
  | string (s : Str) : Dyn X
  | bytes (b : List Nat) : Dyn X
  | other (x : X) : Dyn X

/-- A Go `[]byte`; `none` is the nil slice. -/
abbrev ByteSlice := Option (List Nat)

/-- Go `len(b)` for a byte slice. -/
def ByteSlice.len : ByteSlice → Nat
  | none => 0
  | some b => b.length

/-- Type `canonical.EventContextV01`, with the fields the codec reads and
writes.  `U` is `canonical.URLRef`, `T` is `canonical.Timestamp`; a pointer
field is an `Option`, a nil map is `none`. -/
structure EventContextV01 (U T X : Type) where
  CloudEventsVersion : Str
  EventID : Str
  EventType : Str
  Source : U
  EventTime : Option T
  EventTypeVersion : Str
  SchemaURL : Option U
  ContentType : Str
  Extensions : Option (GoMap (Dyn X))

/-- Modelled from the spec: the `Encoding` type and its constants are declared
outside the given sources.  The modes named by the codec are `Default`,
`BinaryV01`, `StructuredV01` and `Unknown`; `other n` stands for every further
value of the underlying integer type. -/
inductive Encoding where
  | Default : Encoding
  | BinaryV01 : Encoding
  | StructuredV01 : Encoding
  | Unknown : Encoding
  | other (n : Nat) : Encoding
  deriving DecidableEq

/-- Type `http.Message` of the transport: the header mapping and the body. -/
structure Message where
  Header : Header
  Body : ByteSlice

/-- Interface `transport.Message`: either the HTTP message type of this
package or a value of another implementation (`F`). -/
inductive TransportMessage (F : Type) where
  | http (m : Message) : TransportMessage F
  | foreign (f : F) : TransportMessage F

/-- Type `canonical.Event`: a context and a payload. -/
structure Event (C X : Type) where
  Context : C
  Data : Dyn X

/-- Type `CodecV01`. -/
structure CodecV01 where
  Encoding : Encoding

/-- What a call yields instead of a result: an `error` value, or a run-time
panic (`sliceBounds`, `indexRange`). -/
inductive Fault where
  | unknownEncoding (mode : Encoding) : Fault
  | unknownMessageEncoding : Fault
  | notHTTPMessage : Fault
  | library (text : Str) : Fault
  | sliceBounds : Fault
  | indexRange : Fault

/-- A fault that is a run-time panic and not a returned `error`. -/
def Fault.isPanic : Fault → Bool
  | .sliceBounds => true
  | .indexRange => true
  | _ => false

/-- The collaborators of the two files: package `canonical`, the payload and
event marshallers of the transport package, `encoding/json`, the Unicode
tables behind `strings.Title`, and the visiting order of `range` over a map. -/
structure Env where
  /-- Type `canonical.URLRef`. -/
  URLRef : Type
  /-- Type `canonical.Timestamp`. -/
  Timestamp : Type
  /-- Dynamic types other than string and byte slice. -/
  Value : Type
  /-- Interface `canonical.EventContext`. -/
  Context : Type
  /-- Implementations of `transport.Message` other than `http.Message`. -/
  Foreign : Type
  /-- The zero value of `canonical.URLRef`. -/
  zeroURLRef : URLRef
  /-- Method `URLRef.String`. -/
  urlString : URLRef → Str
  /-- Function `canonical.ParseURLRef`; `none` is the nil pointer. -/
  ParseURLRef : Str → Option URLRef
  /-- Method `Timestamp.IsZero`. -/
  timeIsZero : Timestamp → Bool
  /-- Method `Timestamp.String`. -/
  timeString : Timestamp → Str
  /-- Function `canonical.ParseTimestamp`; `none` is the nil pointer. -/
  ParseTimestamp : Str → Option Timestamp
  /-- Constant `canonical.CloudEventsVersionV01`. -/
  CloudEventsVersionV01 : Str
  /-- Method `EventContext.AsV01`. -/
  AsV01 : Context → EventContextV01 URLRef Timestamp Value
  /-- Method `EventContext.DataContentType`. -/
  DataContentType : Context → Str
  /-- A V01 context stored in a `canonical.EventContext` interface value. -/
  ofV01 : EventContextV01 URLRef Timestamp Value → Context
  /-- Method `transport.Message.CloudEventsVersion`. -/
  messageVersion : TransportMessage Foreign → Str
  /-- Function `marshalEventData` of the transport package. -/
  marshalEventData : Str → Dyn Value → Except Str ByteSlice
  /-- Function `marshalEvent` of the transport package. -/
  marshalEvent : EventContextV01 URLRef Timestamp Value → Except Str (List Nat)
  /-- Call `json.Marshal(v)` on a dynamic value, its bytes read as a string. -/
  jsonMarshal : Dyn Value → Except Str Str
  /-- Call `json.Unmarshal` of the bytes of a string into an `interface{}`. -/
  jsonUnmarshal : Str → Except Str (Dyn Value)
  /-- Call `json.Marshal` on a `map[string]interface{}`. -/
  jsonMarshalObject : GoMap (Dyn Value) → Except Str (List Nat)
  /-- Call `json.Unmarshal` into an empty `map[string]interface{}`. -/
  jsonUnmarshalObject : List Nat → Except Str (GoMap (Dyn Value))
  /-- Call `json.Unmarshal` into an empty `map[string]json.RawMessage`. -/
  jsonUnmarshalRaw : ByteSlice → Except Str (GoMap (List Nat))
  /-- Call `json.Unmarshal` of a raw fragment into a string variable holding
  the second argument. -/
  jsonUnmarshalString : List Nat → Str → Except Str Str
  /-- Call `json.Unmarshal` of a raw fragment into an extensions map holding
  the second argument. -/
  jsonUnmarshalExtensions : List Nat → Option (GoMap (Dyn Value)) →
    Except Str (Option (GoMap (Dyn Value)))
  /-- Function `unicode.ToTitle` above the ASCII range. -/
  unicodeToTitle : Char → Char
  /-- Function `unicode.IsLetter` above the ASCII range. -/
  unicodeIsLetter : Char → Bool
  /-- Function `unicode.IsDigit` above the ASCII range. -/
  unicodeIsDigit : Char → Bool
  /-- Function `unicode.IsSpace` above the ASCII range. -/
  unicodeIsSpace : Char → Bool
  /-- Visiting order of the `n`-th `range` over a header mapping. -/
  rangeHeader : Nat → Header → Header
  /-- A `range` visits every entry once. -/
  rangeHeader_perm : ∀ n h, (rangeHeader n h).Perm h
  /-- Visiting order of a `range` over an extensions mapping. -/
  rangeExtensions : GoMap (Dyn Value) → GoMap (Dyn Value)
  /-- A `range` visits every entry once. -/
  rangeExtensions_perm : ∀ m, (rangeExtensions m).Perm m
  /-- Visiting order of a `range` over a map of raw JSON fragments. -/
  rangeRaw : GoMap (List Nat) → GoMap (List Nat)
  /-- A `range` visits every entry once. -/
  rangeRaw_perm : ∀ m, (rangeRaw m).Perm m

/-- The V01 context over the types of an environment. -/
abbrev Env.Ctx (E : Env) : Type := EventContextV01 E.URLRef E.Timestamp E.Value

/-- The events of an environment. -/
abbrev Env.Evt (E : Env) : Type := Event E.Context E.Value

/-- The transport messages of an environment. -/
abbrev Env.Msg (E : Env) : Type := TransportMessage E.Foreign

/-- A library error, as the error the caller returns. -/
def liftLib {α : Type} : Except Str α → Except Fault α
  | .ok a => .ok a
  | .error e => .error (.library e)

/-! ## `strings.Title` and `strings.EqualFold` -/

/-- Function `unicode.ToTitle`. -/
def ToTitle (E : Env) (r : Char) : Char :=
  if r.toNat ≤ 0x7F then upperASCII r else E.unicodeToTitle r

/-- Function `isSeparator` of package `strings`. -/
def isSeparator (E : Env) (r : Char) : Bool :=
  if r.toNat ≤ 0x7F then
    !(isDigitASCII r || isLowerASCII r || isUpperASCII r || r == '_')
  else if E.unicodeIsLetter r || E.unicodeIsDigit r then false
  else E.unicodeIsSpace r

/-- The mapping closure of `strings.Title`, with the previous rune as state. -/
def titleFrom (E : Env) : Char → Str → Str
  | _, [] => []
  | prev, r :: rs => (if isSeparator E prev then ToTitle E r else r) :: titleFrom E r rs

/-- Function `strings.Title`: the letter that begins each word is mapped to
title case. -/
def Title (E : Env) (s : Str) : Str := titleFrom E ' ' s

/-- The extension marker `CE-X-`. -/
def extPrefix : Str := "CE-X-".toList

/-- Call `strings.EqualFold(s, "CE-X-")`.  Unicode simple folding relates the
letters `C`, `E`, `X` only to their ASCII lower-case forms and the dash to
itself, so the comparison is that of the ASCII lower-casings. -/
def equalFoldPrefix (s : Str) : Bool :=
  s.map lowerASCII == extPrefix.map lowerASCII

/-! ## Header names and media types -/

/-- Header name `Content-Type`. -/
def hdrContentType : Str := "Content-Type".toList

/-- Header name `CE-CloudEventsVersion`. -/
def hdrCloudEventsVersion : Str := "CE-CloudEventsVersion".toList

/-- Header name `CE-EventID`. -/
def hdrEventID : Str := "CE-EventID".toList

/-- Header name `CE-EventType`. -/
def hdrEventType : Str := "CE-EventType".toList

/-- Header name `CE-Source`. -/
def hdrSource : Str := "CE-Source".toList

/-- Header name `CE-EventTime`. -/
def hdrEventTime : Str := "CE-EventTime".toList

/-- Header name `CE-EventTypeVersion`. -/
def hdrEventTypeVersion : Str := "CE-EventTypeVersion".toList

/-- Header name `CE-SchemaURL`. -/
def hdrSchemaURL : Str := "CE-SchemaURL".toList

/-- Media type `application/json`. -/
def applicationJSON : Str := "application/json".toList

/-- Media type `application/cloudevents+json`. -/
def applicationCloudEventsJSON : Str := "application/cloudevents+json".toList

/-! ## The codec -/

/-- The headers `toHeaders` writes before it turns to the extensions: the four
fixed attributes, the optional attributes that are set, and `Content-Type`. -/
def attributeHeaders (E : Env) (v : CodecV01) (ec : E.Ctx) : Header :=
  let h : Header := []
  let h := GoMap.set h hdrCloudEventsVersion [ec.CloudEventsVersion]
  let h := GoMap.set h hdrEventID [ec.EventID]
  let h := GoMap.set h hdrEventType [ec.EventType]
  let h := GoMap.set h hdrSource [E.urlString ec.Source]
  let h := match ec.EventTime with
    | some t => if !E.timeIsZero t then GoMap.set h hdrEventTime [E.timeString t] else h
    | none => h
  let h := if ec.EventTypeVersion ≠ [] then
      GoMap.set h hdrEventTypeVersion [ec.EventTypeVersion] else h
  let h := match ec.SchemaURL with
    | some u => GoMap.set h hdrSchemaURL [E.urlString u]
    | none => h
  if ec.ContentType ≠ [] then
    Header.Set h hdrContentType ec.ContentType
  else if v.Encoding = Encoding.Default ∨ v.Encoding = Encoding.BinaryV01 then
    Header.Set h hdrContentType applicationJSON
  else h

/-- One turn of the extension loop of `toHeaders`. -/
def extensionHeader (E : Env) (h : Header) (kv : Str × Dyn E.Value) : Except Fault Header :=
  match E.jsonMarshal kv.2 with
  | .error err => .error (.library err)
  | .ok encoded => .ok (GoMap.set h (extPrefix ++ Title E kv.1) [encoded])

/-- Method `CodecV01.toHeaders`. -/
def toHeaders (E : Env) (v : CodecV01) (ec : E.Ctx) : Except Fault Header :=
  (E.rangeExtensions (ec.Extensions.getD [])).foldlM (extensionHeader E)
    (attributeHeaders E v ec)

/-- Method `CodecV01.encodeBinary`. -/
def encodeBinary (E : Env) (v : CodecV01) (e : E.Evt) : Except Fault E.Msg := do
  let header ← toHeaders E v (E.AsV01 e.Context)
  let body ← liftLib (E.marshalEventData (E.DataContentType e.Context) e.Data)
  pure (.http { Header := header, Body := body })

/-- The `data` entry that `encodeStructured` adds to the JSON object. -/
def structuredData (E : Env) (e : E.Evt) (b : GoMap (Dyn E.Value)) :
    Except Fault (GoMap (Dyn E.Value)) :=
  if E.DataContentType e.Context = applicationJSON then
    match e.Data with
    | .nil => .ok b
    | d => .ok (GoMap.set b "data".toList d)
  else
    match E.marshalEventData (E.DataContentType e.Context) e.Data with
    | .error err => .error (.library err)
    | .ok none => .ok b
    | .ok (some data) => .ok (GoMap.set b "data".toList (.bytes data))

/-- Method `CodecV01.encodeStructured`. -/
def encodeStructured (E : Env) (_v : CodecV01) (e : E.Evt) : Except Fault E.Msg := do
  let header := Header.Set [] hdrContentType applicationCloudEventsJSON
  let ctx ← liftLib (E.marshalEvent (E.AsV01 e.Context))
  let b ← liftLib (E.jsonUnmarshalObject ctx)
  let b ← structuredData E e b
  let body ← liftLib (E.jsonMarshalObject b)
  pure (.http { Header := header, Body := some body })

/-- Method `CodecV01.Encode`. -/
def Encode (E : Env) (v : CodecV01) (e : E.Evt) : Except Fault E.Msg :=
  match v.Encoding with
  | .Default => encodeBinary E v e
  | .BinaryV01 => encodeBinary E v e
  | .StructuredV01 => encodeStructured E v e
  | _ => .error (.unknownEncoding v.Encoding)

/-- The normalising loop of `fromHeaders`: every entry whose key is not in
canonical form is stored again under the canonical key. -/
def normalizeHeaders (E : Env) (h : Header) : Header :=
  (E.rangeHeader 0 h).foldl
    (fun acc kv =>
      if kv.1 ≠ CanonicalMIMEHeaderKey kv.1 then
        GoMap.set acc (CanonicalMIMEHeaderKey kv.1) kv.2
      else acc)
    h

/-- One turn of the extension loop of `fromHeaders`.  The slice `k[:5]` panics
on a key of fewer than five bytes, the index `v[0]` on an empty value list.
The five bytes of `k[:5]` fold to the marker only when they are five ASCII
characters, and then they are the first five code points of `k` and `k[5:]`
is the rest; in every other case neither the byte slice nor the first five
code points fold to the marker. -/
def extensionEntry (E : Env) (ext : GoMap (Dyn E.Value)) (kv : Str × List Str) :
    Except Fault (GoMap (Dyn E.Value)) :=
  if byteLen kv.1 < byteLen extPrefix then .error .sliceBounds
  else if equalFoldPrefix (kv.1.take 5) then
    match kv.2 with
    | [] => .error .indexRange
    | v0 :: _ =>
      match E.jsonUnmarshal v0 with
      | .ok tmp => .ok (GoMap.set ext (kv.1.drop 5) tmp)
      | .error _ => .ok (GoMap.set ext (kv.1.drop 5) (.string v0))
  else .ok ext

/-- Method `CodecV01.fromHeaders`.  (The source also leaves the normalised
entries in the header mapping it was given.) -/
def fromHeaders (E : Env) (_v : CodecV01) (h₀ : Header) : Except Fault E.Ctx := do
  let h := normalizeHeaders E h₀
  let extensions ← (E.rangeHeader 1 h).foldlM (extensionEntry E) []
  pure {
    CloudEventsVersion := Header.Get h hdrCloudEventsVersion
    EventID := Header.Get h hdrEventID
    EventType := Header.Get h hdrEventType
    Source := (E.ParseURLRef (Header.Get h hdrSource)).getD E.zeroURLRef
    EventTime := E.ParseTimestamp (Header.Get h hdrEventTime)
    EventTypeVersion := Header.Get h hdrEventTypeVersion
    SchemaURL := E.ParseURLRef (Header.Get h hdrSchemaURL)
    ContentType := Header.Get h hdrContentType
    Extensions := if 0 < extensions.length then some extensions else none }

/-- Method `CodecV01.decodeBinary`. -/
def decodeBinary (E : Env) (v : CodecV01) (msg : E.Msg) : Except Fault E.Evt :=
  match msg with
  | .foreign _ => .error .notHTTPMessage
  | .http m => do
    let ctx ← fromHeaders E v m.Header
    pure { Context := E.ofV01 ctx
           Data := if 0 < m.Body.len then .bytes (m.Body.getD []) else .nil }

/-- The state of the key loop of `decodeStructured`: the context and the data. -/
abbrev StructuredState (E : Env) : Type := E.Ctx × Dyn E.Value

/-- One turn of the key loop of `decodeStructured`. -/
def structuredKey (E : Env) (st : StructuredState E) (kv : Str × List Nat) :
    Except Fault (StructuredState E) :=
  let ec := st.1
  if kv.1 = "cloudEventsVersion".toList then do
    let s ← liftLib (E.jsonUnmarshalString kv.2 ec.CloudEventsVersion)
    pure ({ ec with CloudEventsVersion := s }, st.2)
  else if kv.1 = "eventType".toList then do
    let s ← liftLib (E.jsonUnmarshalString kv.2 ec.EventType)
    pure ({ ec with EventType := s }, st.2)
  else if kv.1 = "eventTypeVersion".toList then do
    let s ← liftLib (E.jsonUnmarshalString kv.2 ec.EventTypeVersion)
    pure ({ ec with EventTypeVersion := s }, st.2)
  else if kv.1 = "eventID".toList then do
    let s ← liftLib (E.jsonUnmarshalString kv.2 ec.EventID)
    pure ({ ec with EventID := s }, st.2)
  else if kv.1 = "source".toList then do
    let src ← liftLib (E.jsonUnmarshalString kv.2 [])
    match E.ParseURLRef src with
    | some source => pure ({ ec with Source := source }, st.2)
    | none => pure st
  else if kv.1 = "schemaURL".toList then do
    let schemaURL ← liftLib (E.jsonUnmarshalString kv.2 [])
    pure ({ ec with SchemaURL := E.ParseURLRef schemaURL }, st.2)
  else if kv.1 = "contentType".toList then do
    let s ← liftLib (E.jsonUnmarshalString kv.2 ec.ContentType)
    pure ({ ec with ContentType := s }, st.2)
  else if kv.1 = "eventTime".toList then do
    let t ← liftLib (E.jsonUnmarshalString kv.2 [])
    pure ({ ec with EventTime := E.ParseTimestamp t }, st.2)
  else if kv.1 = "data".toList then
    pure (ec, .bytes kv.2)
  else if kv.1 = "extensions".toList then do
    let x ← liftLib (E.jsonUnmarshalExtensions kv.2 ec.Extensions)
    pure ({ ec with Extensions := x }, st.2)
  else pure st

/-- The zero value of `canonical.EventContextV01`. -/
def zeroContext (E : Env) : E.Ctx :=
  { CloudEventsVersion := [], EventID := [], EventType := [], Source := E.zeroURLRef,
    EventTime := none, EventTypeVersion := [], SchemaURL := none, ContentType := [],
    Extensions := none }

/-- Method `CodecV01.decodeStructured`. -/
def decodeStructured (E : Env) (_v : CodecV01) (msg : E.Msg) : Except Fault E.Evt :=
  match msg with
  | .foreign _ => .error .notHTTPMessage
  | .http m => do
    let raw ← liftLib (E.jsonUnmarshalRaw m.Body)
    let st ← (E.rangeRaw raw).foldlM (structuredKey E) (zeroContext E, Dyn.nil)
    pure { Context := E.ofV01 st.1, Data := st.2 }

/-- Method `CodecV01.inspectEncoding`. -/
def inspectEncoding (E : Env) (_v : CodecV01) (msg : E.Msg) : Encoding :=
  if E.messageVersion msg ≠ E.CloudEventsVersionV01 then Encoding.Unknown
  else
    match msg with
    | .foreign _ => Encoding.Unknown
    | .http m =>
      let contentType := Header.Get m.Header hdrContentType
      if contentType = applicationJSON then Encoding.BinaryV01
      else if contentType = applicationCloudEventsJSON then Encoding.StructuredV01
      else Encoding.Unknown

/-- Method `CodecV01.Decode`. -/
def Decode (E : Env) (v : CodecV01) (msg : E.Msg) : Except Fault E.Evt :=
  match inspectEncoding E v msg with
  | .BinaryV01 => decodeBinary E v msg
  | .StructuredV01 => decodeStructured E v msg
  | _ => .error .unknownMessageEncoding

/-! ## A concrete environment

URL references and timestamps are kept as their text, the only dynamic values
beside strings are natural numbers, written in decimal by the JSON functions,
and every `range` visits a map in the order of its association list. -/

/-- Decimal digits of a number. -/
def showNat (n : Nat) : Str := Nat.toDigits 10 n

/-- Reading of a non-empty string of decimal digits. -/
def readNat (s : Str) : Option Nat :=
  if s ≠ [] ∧ s.all isDigitASCII = true then
    some (s.foldl (fun n c => 10 * n + (c.toNat - 48)) 0)
  else none

/-- The declared version of a sample message: the value stored under
`CE-CloudEventsVersion`, else under its canonical form. -/
def sampleVersion : TransportMessage Unit → Str
  | .foreign _ => []
  | .http m =>
    match GoMap.get m.Header hdrCloudEventsVersion with
    | some [x] => x
    | _ => Header.Get m.Header hdrCloudEventsVersion

/-- The sample environment. -/
def sampleEnv : Env where
  URLRef := Str
  Timestamp := Str
  Value := Nat
  Context := EventContextV01 Str Str Nat
  Foreign := Unit
  zeroURLRef := []
  urlString := fun u => u
  ParseURLRef := fun s => some s
  timeIsZero := fun t => t.isEmpty
  timeString := fun t => t
  ParseTimestamp := fun s => if s.isEmpty then none else some s
  CloudEventsVersionV01 := "0.1".toList
  AsV01 := fun c => c
  DataContentType := fun c => c.ContentType
  ofV01 := fun c => c
  messageVersion := sampleVersion
  marshalEventData := fun _ d =>
    match d with
    | .nil => .ok none
    | .string x => .ok (some (x.map Char.toNat))
    | .bytes b => .ok (some b)
    | .other n => .ok (some ((showNat n).map Char.toNat))
  marshalEvent := fun _ => .ok []
  jsonMarshal := fun d =>
    match d with
    | .other n => .ok (showNat n)
    | .string x => .ok (Char.ofNat 34 :: x ++ [Char.ofNat 34])
    | .nil => .ok "null".toList
    | .bytes _ => .error "unsupported".toList
  jsonUnmarshal := fun x =>
    match readNat x with
    | some n => .ok (.other n)
    | none => .error "invalid".toList
  jsonMarshalObject := fun _ => .ok []
  jsonUnmarshalObject := fun _ => .ok []
  jsonUnmarshalRaw := fun _ => .ok []
  jsonUnmarshalString := fun _ cur => .ok cur
  jsonUnmarshalExtensions := fun _ cur => .ok cur
  unicodeToTitle := fun c => c
  unicodeIsLetter := fun _ => true
  unicodeIsDigit := fun _ => false
  unicodeIsSpace := fun _ => false
  rangeHeader := fun _ h => h
  rangeHeader_perm := fun _ h => List.Perm.refl h
  rangeExtensions := fun m => m
  rangeExtensions_perm := fun m => List.Perm.refl m
  rangeRaw := fun m => m
  rangeRaw_perm := fun m => List.Perm.refl m

/-- A sample V01 context: identifier `1`, type `t`, source `/s`. -/
def sampleContext (contentType : Str) (ext : Option (GoMap (Dyn Nat))) : sampleEnv.Ctx :=
  { CloudEventsVersion := "0.1".toList, EventID := "1".toList, EventType := "t".toList,
    Source := "/s".toList, EventTime := none, EventTypeVersion := [],
    SchemaURL := none, ContentType := contentType, Extensions := ext }

/-- A sample event without payload. -/
def sampleEvent (contentType : Str) (ext : Option (GoMap (Dyn Nat))) : sampleEnv.Evt :=
  { Context := sampleContext contentType ext, Data := .nil }

/-- A number as a dynamic value of the sample environment. -/
def sampleNumber (n : Nat) : Dyn Nat := .other n

/-- A sample bodiless HTTP message with the two given header values. -/
def sampleMessage (version contentType : Str) : Message :=
  { Header := [(hdrCloudEventsVersion, [version]), (hdrContentType, [contentType])],
    Body := none }

/-! ## Loops that write map entries

The three map-building loops of the codec (the extension loop of `toHeaders`,
the normalising loop and the extension loop of `fromHeaders`) each visit a
list of entries and, per entry, write at most one entry of the map they
build.  `writeAll` is that common shape. -/

/-- The effect of one loop turn on the map: no change, or one write. -/
def writeEntry {β : Type} (acc : GoMap β) : Option (Str × β) → GoMap β
  | none => acc
  | some (k, v) => GoMap.set acc k v

/-- The effect of a whole loop, `w` giving the write of each turn. -/
def writeAll {α β : Type} (w : α → Option (Str × β)) (l : List α) (init : GoMap β) :
    GoMap β :=
  l.foldl (fun acc x => writeEntry acc (w x)) init

/-- The write of one turn of the normalising loop of `fromHeaders`. -/
def normalWrite (kv : Str × List Str) : Option (Str × List Str) :=
  if kv.1 ≠ CanonicalMIMEHeaderKey kv.1 then some (CanonicalMIMEHeaderKey kv.1, kv.2)
  else none

/-- The write of one turn of the extension loop of `toHeaders`, when the
value serialises. -/
def headerWrite (E : Env) (kv : Str × Dyn E.Value) : Option (Str × List Str) :=
  match E.jsonMarshal kv.2 with
  | .ok encoded => some (extPrefix ++ Title E kv.1, [encoded])
  | .error _ => none

/-- The test of the extension loop of `fromHeaders` on a header name. -/
def hasExtPrefix (k : Str) : Bool := equalFoldPrefix (k.take 5)

/-- What the extension loop of `fromHeaders` stores for a first value: its
JSON decoding, or the string itself when it is not valid JSON. -/
def decodeExtension (E : Env) (v0 : Str) : Dyn E.Value :=
  match E.jsonUnmarshal v0 with
  | .ok tmp => tmp
  | .error _ => .string v0

/-- The write of one turn of the extension loop of `fromHeaders`, when the
turn does not panic. -/
def entryWrite (E : Env) (kv : Str × List Str) : Option (Str × Dyn E.Value) :=
  if hasExtPrefix kv.1 then
    match kv.2 with
    | [] => none
    | v0 :: _ => some (kv.1.drop 5, decodeExtension E v0)
  else none

/-- The spec's wording of the extension header name: the attribute name with
its first character capitalised and the remaining characters unchanged. -/
def capitalizeFirst (E : Env) : Str → Str
  | [] => []
  | c :: cs => ToTitle E c :: cs

/-! ## The tracing extension -/

/-- Constant `traceParentName`. -/
def traceParentName : Str := "traceparent".toList

/-- Constant `traceStateName`. -/
def traceStateName : Str := "tracestate".toList

/-- The collaborators of the tracing extension: the value behind the
`EventTracer` interface with its `SetExtension` method, which yields the value
as the call leaves it and the error it returns (`none` is the nil error),
the formatting of `fmt` for values that are neither nil nor a string, and the
visiting order of `range` over the attributes. -/
structure Tracing where
  /-- Dynamic types other than string and byte slice. -/
  Value : Type
  /-- The states of the value behind the `EventTracer` interface. -/
  Tracer : Type
  /-- Method `EventTracer.SetExtension`. -/
  SetExtension : Tracer → Str → Dyn Value → Tracer × Option Str
  /-- Call `fmt.Sprintf("%v", v)` on a value that is neither nil nor a string. -/
  formatValue : Dyn Value → Str
  /-- Visiting order of the `range` over the attributes. -/
  rangeAttributes : GoMap (Dyn Value) → GoMap (Dyn Value)
  /-- A `range` visits every entry once. -/
  rangeAttributes_perm : ∀ m, (rangeAttributes m).Perm m

/-- The package variable `attributes`, a `map[string]interface{}`. -/
abbrev Tracing.Registry (T : Tracing) : Type := GoMap (Dyn T.Value)

/-- Call `fmt.Sprintf("%v", v)`: a nil interface prints as `<nil>`, a string
as itself. -/
def sprintValue (T : Tracing) : Dyn T.Value → Str
  | .nil => "<nil>".toList
  | .string s => s
  | d => T.formatValue d

/-- Map read `attributes[name]` without presence flag: the nil interface when
the name is absent. -/
def attributeOf (T : Tracing) (attributes : T.Registry) (name : Str) : Dyn T.Value :=
  (GoMap.get attributes name).getD .nil

/-- Function `TraceParent`. -/
def TraceParent (T : Tracing) (attributes : T.Registry) : Str :=
  sprintValue T (attributeOf T attributes traceParentName)

/-- Function `SetTraceParent`, as the attributes it leaves. -/
def SetTraceParent (T : Tracing) (attributes : T.Registry) (traceparent : Str) : T.Registry :=
  GoMap.set attributes traceParentName (.string traceparent)

/-- Function `TraceState`. -/
def TraceState (T : Tracing) (attributes : T.Registry) : Str :=
  sprintValue T (attributeOf T attributes traceStateName)

/-- Function `SetTraceState`, as the attributes it leaves. -/
def SetTraceState (T : Tracing) (attributes : T.Registry) (tracestate : Str) : T.Registry :=
  GoMap.set attributes traceStateName (.string tracestate)

/-- What a call of `AddTracingAttributes` leaves: the package variable, the
target, the `SetExtension` calls made, in order, and the error returned. -/
structure Applied (T : Tracing) where
  attributes : T.Registry
  target : T.Tracer
  calls : List (Str × Dyn T.Value)
  err : Option Str

/-- The loop of `AddTracingAttributes` over the entries still to visit, from
the current target and the calls made so far. -/
def setExtensions (T : Tracing) (attributes : T.Registry) :
    List (Str × Dyn T.Value) → T.Tracer → List (Str × Dyn T.Value) → Applied T
  | [], ec, calls => ⟨attributes, ec, calls, none⟩
  | (k, v) :: rest, ec, calls =>
    match T.SetExtension ec k v with
    | (ec', some err) => ⟨attributes, ec', calls ++ [(k, v)], some err⟩
    | (ec', none) => setExtensions T attributes rest ec' (calls ++ [(k, v)])

/-- Function `AddTracingAttributes`. -/
def AddTracingAttributes (T : Tracing) (attributes : T.Registry) (ec : T.Tracer) : Applied T :=
  if (GoMap.get attributes traceParentName).isSome then
    setExtensions T attributes (T.rangeAttributes attributes) ec []
  else ⟨attributes, ec, [], none⟩

/-- The target after a sequence of `SetExtension` calls, none undone. -/
def replay (T : Tracing) : List (Str × Dyn T.Value) → T.Tracer → T.Tracer
  | [], ec => ec
  | (k, v) :: rest, ec => replay T rest (T.SetExtension ec k v).1

/-- The errors returned by a sequence of `SetExtension` calls. -/
def replayErrors (T : Tracing) : List (Str × Dyn T.Value) → T.Tracer → List (Option Str)
  | [], _ => []
  | (k, v) :: rest, ec =>
    (T.SetExtension ec k v).2 :: replayErrors T rest (T.SetExtension ec k v).1

/-- A sample target: a map of extensions whose `SetExtension` stores the
value, or for a rejected name returns an error and stores nothing. -/
def sampleTracing (rejected : Str → Bool) : Tracing where
  Value := Nat
  Tracer := GoMap (Dyn Nat)
  SetExtension := fun ec k v =>
    if rejected k then (ec, some "rejected".toList) else (GoMap.set ec k v, none)
  formatValue := fun _ => []
  rangeAttributes := fun m => m
  rangeAttributes_perm := fun m => List.Perm.refl m

/-! ## The attributes of the structured envelope

The key loop of `decodeStructured` stores what each known key decodes to in
one place of its state, a different place for each key.  `Slot` names the
places; `Slot.read` and `Slot.write` access them and `Slot.decode` is the
decoding the loop applies for the key. -/

/-- The top-level keys that `decodeStructured` dispatches on. -/
def knownKeys : List Str :=
  ["cloudEventsVersion".toList, "eventType".toList, "eventTypeVersion".toList,
    "eventID".toList, "source".toList, "schemaURL".toList, "contentType".toList,
    "eventTime".toList, "data".toList, "extensions".toList]

/-- The places of the decoding state, one for each known key. -/
inductive Slot where
  | cloudEventsVersion : Slot
  | eventType : Slot
  | eventTypeVersion : Slot
  | eventID : Slot
  | source : Slot
  | schemaURL : Slot
  | contentType : Slot
  | eventTime : Slot
  | data : Slot
  | extensions : Slot
  deriving DecidableEq

/-- The `switch` of `decodeStructured` on a key: the place of a known key,
`none` for the `default` case. -/
def slotOf (k : Str) : Option Slot :=
  if k = "cloudEventsVersion".toList then some .cloudEventsVersion
  else if k = "eventType".toList then some .eventType
  else if k = "eventTypeVersion".toList then some .eventTypeVersion
  else if k = "eventID".toList then some .eventID
  else if k = "source".toList then some .source
  else if k = "schemaURL".toList then some .schemaURL
  else if k = "contentType".toList then some .contentType
  else if k = "eventTime".toList then some .eventTime
  else if k = "data".toList then some .data
  else if k = "extensions".toList then some .extensions
  else none

/-- The key of a place. -/
def Slot.key : Slot → Str
  | .cloudEventsVersion => "cloudEventsVersion".toList
  | .eventType => "eventType".toList
  | .eventTypeVersion => "eventTypeVersion".toList
  | .eventID => "eventID".toList
  | .source => "source".toList
  | .schemaURL => "schemaURL".toList
  | .contentType => "contentType".toList
  | .eventTime => "eventTime".toList
  | .data => "data".toList
  | .extensions => "extensions".toList

/-- The type of what a place holds. -/
def Slot.Holds (E : Env) : Slot → Type
  | .cloudEventsVersion => Str
  | .eventType => Str
  | .eventTypeVersion => Str
  | .eventID => Str
  | .source => E.URLRef
  | .schemaURL => Option E.URLRef
  | .contentType => Str
  | .eventTime => Option E.Timestamp
  | .data => Dyn E.Value
  | .extensions => Option (GoMap (Dyn E.Value))

/-- What a place of the state holds. -/
def Slot.read (E : Env) : (s : Slot) → StructuredState E → s.Holds E
  | .cloudEventsVersion, st => st.1.CloudEventsVersion
  | .eventType, st => st.1.EventType
  | .eventTypeVersion, st => st.1.EventTypeVersion
  | .eventID, st => st.1.EventID
  | .source, st => st.1.Source
  | .schemaURL, st => st.1.SchemaURL
  | .contentType, st => st.1.ContentType
  | .eventTime, st => st.1.EventTime
  | .data, st => st.2
  | .extensions, st => st.1.Extensions

/-- The state with one place overwritten. -/
def Slot.write (E : Env) : (s : Slot) → s.Holds E → StructuredState E → StructuredState E
  | .cloudEventsVersion, x, st => ({ st.1 with CloudEventsVersion := x }, st.2)
  | .eventType, x, st => ({ st.1 with EventType := x }, st.2)
  | .eventTypeVersion, x, st => ({ st.1 with EventTypeVersion := x }, st.2)
  | .eventID, x, st => ({ st.1 with EventID := x }, st.2)
  | .source, x, st => ({ st.1 with Source := x }, st.2)
  | .schemaURL, x, st => ({ st.1 with SchemaURL := x }, st.2)
  | .contentType, x, st => ({ st.1 with ContentType := x }, st.2)
  | .eventTime, x, st => ({ st.1 with EventTime := x }, st.2)
  | .data, x, st => (st.1, x)
  | .extensions, x, st => ({ st.1 with Extensions := x }, st.2)

/-- What the loop decodes a raw fragment to for a place that holds `cur`. -/
def Slot.decode (E : Env) : (s : Slot) → List Nat → s.Holds E → Except Str (s.Holds E)
  | .cloudEventsVersion, raw, cur => E.jsonUnmarshalString raw cur
  | .eventType, raw, cur => E.jsonUnmarshalString raw cur
  | .eventTypeVersion, raw, cur => E.jsonUnmarshalString raw cur
  | .eventID, raw, cur => E.jsonUnmarshalString raw cur
  | .source, raw, cur =>
    match E.jsonUnmarshalString raw [] with
    | .ok src => .ok ((E.ParseURLRef src).getD cur)
    | .error err => .error err
  | .schemaURL, raw, _ =>
    match E.jsonUnmarshalString raw [] with
    | .ok str => .ok (E.ParseURLRef str)
    | .error err => .error err
  | .contentType, raw, cur => E.jsonUnmarshalString raw cur
  | .eventTime, raw, _ =>
    match E.jsonUnmarshalString raw [] with
    | .ok t => .ok (E.ParseTimestamp t)
    | .error err => .error err
  | .data, raw, _ => .ok (.bytes raw)
  | .extensions, raw, cur => E.jsonUnmarshalExtensions raw cur

/-- One turn of the key loop, by places. -/
def fillSlot (E : Env) (st : StructuredState E) (kv : Str × List Nat) :
    Except Fault (StructuredState E) :=
  match slotOf kv.1 with
  | none => .ok st
  | some s =>
    match Slot.decode E s kv.2 (Slot.read E s st) with
    | .ok x => .ok (Slot.write E s x st)
    | .error err => .error (.library err)

/-- A sample environment whose JSON reader takes the body of the one byte 1
for the object `second` and every other body for the object `first`. -/
def sampleRawEnv (first second : GoMap (List Nat)) : Env :=
  { sampleEnv with
    jsonUnmarshalRaw := fun body => if body = some [1] then .ok second else .ok first }

/-- The names of the headers of a mapping that begin with the marker
`CE-X-`. -/
def extensionHeaderNames (h : Header) : List Str :=
  (GoMap.keys h).filter (fun k => decide (k.take 5 = extPrefix))

/-! ## ASCII case and canonical header keys -/

theorem forall_lowerASCII (P : Char → Prop)
    (hP : ∀ n, 97 ≤ n → n ≤ 122 → P (Char.ofNat n)) (c : Char)
    (h : isLowerASCII c = true) : P c := by
  have hb : 97 ≤ c.toNat ∧ c.toNat ≤ 122 := by
    simpa [isLowerASCII, inRange] using h
  have := hP c.toNat hb.1 hb.2
  rwa [Char.ofNat_toNat] at this

theorem forall_upperASCII (P : Char → Prop)
    (hP : ∀ n, 65 ≤ n → n ≤ 90 → P (Char.ofNat n)) (c : Char)
    (h : isUpperASCII c = true) : P c := by
  have hb : 65 ≤ c.toNat ∧ c.toNat ≤ 90 := by
    simpa [isUpperASCII, inRange] using h
  have := hP c.toNat hb.1 hb.2
  rwa [Char.ofNat_toNat] at this

theorem lowerASCII_upperASCII (c : Char) (h : isLowerASCII c = true) :
    lowerASCII (upperASCII c) = lowerASCII c ∧ utf8Width (upperASCII c) = utf8Width c := by
  refine forall_lowerASCII
    (fun c => lowerASCII (upperASCII c) = lowerASCII c ∧ utf8Width (upperASCII c) = utf8Width c)
    ?_ c h
  intro n h1 h2
  interval_cases n <;> decide

theorem lowerASCII_lowerASCII (c : Char) (h : isUpperASCII c = true) :
    lowerASCII (lowerASCII c) = lowerASCII c ∧ utf8Width (lowerASCII c) = utf8Width c := by
  refine forall_upperASCII
    (fun c => lowerASCII (lowerASCII c) = lowerASCII c ∧ utf8Width (lowerASCII c) = utf8Width c)
    ?_ c h
  intro n h1 h2
  interval_cases n <;> decide

/-- The canonicalising loop changes the ASCII case of letters and nothing
else. -/
theorem canonLoop_fold (upper : Bool) (s : Str) :
    (canonLoop upper s).map lowerASCII = s.map lowerASCII ∧
      byteLen (canonLoop upper s) = byteLen s := by
  induction s generalizing upper with
  | nil => simp [canonLoop, byteLen]
  | cons c cs ih =>
    simp only [canonLoop, List.map_cons, byteLen]
    split_ifs with h1 h2
    · have hc := lowerASCII_upperASCII c (by simp_all)
      rw [hc.1, hc.2, (ih _).1, (ih _).2]
      exact ⟨rfl, rfl⟩
    · have hc := lowerASCII_lowerASCII c (by simp_all)
      rw [hc.1, hc.2, (ih _).1, (ih _).2]
      exact ⟨rfl, rfl⟩
    · rw [(ih _).1, (ih _).2]
      exact ⟨rfl, rfl⟩

theorem CanonicalMIMEHeaderKey_fold (s : Str) :
    (CanonicalMIMEHeaderKey s).map lowerASCII = s.map lowerASCII ∧
      byteLen (CanonicalMIMEHeaderKey s) = byteLen s := by
  unfold CanonicalMIMEHeaderKey
  split_ifs
  · exact canonLoop_fold true s
  · exact ⟨rfl, rfl⟩

theorem hasExtPrefix_eq (k : Str) :
    hasExtPrefix k = ((k.map lowerASCII).take 5 == extPrefix.map lowerASCII) := by
  simp [hasExtPrefix, equalFoldPrefix, List.map_take]

theorem hasExtPrefix_of_fold (k k' : Str) (h : k'.map lowerASCII = k.map lowerASCII) :
    hasExtPrefix k' = hasExtPrefix k := by
  rw [hasExtPrefix_eq, hasExtPrefix_eq, h]

theorem hasExtPrefix_canonical (k : Str) :
    hasExtPrefix (CanonicalMIMEHeaderKey k) = hasExtPrefix k :=
  hasExtPrefix_of_fold _ _ (CanonicalMIMEHeaderKey_fold k).1

/-- Two names with the marker and the same remainder differ at most in the
ASCII case of the marker. -/
theorem fold_eq_of_drop_eq (k k' : Str) (hk : hasExtPrefix k = true)
    (hk' : hasExtPrefix k' = true) (hd : k'.drop 5 = k.drop 5) :
    k'.map lowerASCII = k.map lowerASCII := by
  have e1 : (k.take 5).map lowerASCII = extPrefix.map lowerASCII := by
    simpa [hasExtPrefix, equalFoldPrefix] using hk
  have e2 : (k'.take 5).map lowerASCII = extPrefix.map lowerASCII := by
    simpa [hasExtPrefix, equalFoldPrefix] using hk'
  rw [← List.take_append_drop 5 k, ← List.take_append_drop 5 k', List.map_append,
    List.map_append, e1, e2, hd]

/-! ## Map and header lemmas -/

theorem GoMap.get_set {β : Type} (m : GoMap β) (k key : Str) (v : β) :
    GoMap.get (GoMap.set m k v) key = if k = key then some v else GoMap.get m key := by
  induction m with
  | nil => simp [GoMap.set, GoMap.get]
  | cons p m ih =>
    obtain ⟨k', v'⟩ := p
    by_cases h : k' = k
    · subst h
      by_cases h2 : k' = key <;> simp [GoMap.set, GoMap.get, h2]
    · by_cases h2 : k' = key
      · subst h2
        have h3 : ¬ k = k' := fun h3 => h h3.symm
        simp [GoMap.set, GoMap.get, h, h3]
      · simp [GoMap.set, GoMap.get, h, h2, ih]

theorem GoMap.get_set_self {β : Type} (m : GoMap β) (k : Str) (v : β) :
    GoMap.get (GoMap.set m k v) k = some v := by
  simp [GoMap.get_set]

theorem GoMap.get_set_ne {β : Type} (m : GoMap β) (k key : Str) (v : β) (h : k ≠ key) :
    GoMap.get (GoMap.set m k v) key = GoMap.get m key := by
  simp [GoMap.get_set, h]

theorem canonical_hdrContentType : CanonicalMIMEHeaderKey hdrContentType = hdrContentType := by
  decide

theorem extPrefix_length : extPrefix.length = 5 := by decide

theorem take_extPrefix_append (t : Str) : (extPrefix ++ t).take 5 = extPrefix :=
  List.take_left' extPrefix_length

theorem drop_extPrefix_append (t : Str) : (extPrefix ++ t).drop 5 = t :=
  List.drop_left' extPrefix_length

/-- The extension loop of `toHeaders` leaves every header without the marker
as it found it. -/
theorem extensionHeaders_get_other (E : Env) (l : GoMap (Dyn E.Value)) (h h' : Header)
    (key : Str) (hkey : key.take 5 ≠ extPrefix)
    (hok : l.foldlM (extensionHeader E) h = .ok h') :
    GoMap.get h' key = GoMap.get h key := by
  induction l generalizing h with
  | nil =>
    simp only [List.foldlM_nil, pure, Except.pure, Except.ok.injEq] at hok
    rw [hok]
  | cons kv l ih =>
    simp only [List.foldlM_cons, bind, Except.bind, extensionHeader] at hok
    cases hm : E.jsonMarshal kv.2 with
    | error err => simp [hm] at hok
    | ok encoded =>
      simp only [hm] at hok
      rw [ih _ hok]
      apply GoMap.get_set_ne
      intro heq
      apply hkey
      rw [← heq]
      exact take_extPrefix_append _

theorem attributeHeaders_contentType (E : Env) (v : CodecV01) (ec : E.Ctx)
    (hmode : v.Encoding = Encoding.Default ∨ v.Encoding = Encoding.BinaryV01) :
    GoMap.get (attributeHeaders E v ec) hdrContentType
      = some [if ec.ContentType = [] then applicationJSON else ec.ContentType] := by
  unfold attributeHeaders
  by_cases hct : ec.ContentType = []
  · simp [hct, hmode, Header.Set, canonical_hdrContentType, GoMap.get_set_self]
  · simp [hct, Header.Set, canonical_hdrContentType, GoMap.get_set_self]

theorem attributeHeaders_fixed (E : Env) (v : CodecV01) (ec : E.Ctx) :
    GoMap.get (attributeHeaders E v ec) hdrCloudEventsVersion = some [ec.CloudEventsVersion] ∧
    GoMap.get (attributeHeaders E v ec) hdrEventID = some [ec.EventID] ∧
    GoMap.get (attributeHeaders E v ec) hdrEventType = some [ec.EventType] ∧
    GoMap.get (attributeHeaders E v ec) hdrSource = some [E.urlString ec.Source] := by
  unfold attributeHeaders
  simp only [Header.Set, canonical_hdrContentType]
  refine ⟨?_, ?_, ?_, ?_⟩ <;>
  · split_ifs <;> (try split) <;> (try split) <;> (try split_ifs) <;>
      simp +decide [GoMap.get_set]

theorem attributeHeaders_optional (E : Env) (v : CodecV01) (ec : E.Ctx) :
    GoMap.get (attributeHeaders E v ec) hdrEventTime
      = (match ec.EventTime with
        | some t => if E.timeIsZero t = true then none else some [E.timeString t]
        | none => none) ∧
    GoMap.get (attributeHeaders E v ec) hdrEventTypeVersion
      = (if ec.EventTypeVersion = [] then none else some [ec.EventTypeVersion]) ∧
    GoMap.get (attributeHeaders E v ec) hdrSchemaURL
      = ec.SchemaURL.map (fun u => [E.urlString u]) := by
  rcases ec with ⟨cv, id, ty, src, et, etv, su, ct, ex⟩
  simp only [attributeHeaders, Header.Set, canonical_hdrContentType]
  refine ⟨?_, ?_, ?_⟩ <;>
  · rcases et with _ | t <;> rcases su with _ | u <;> dsimp only <;> split_ifs <;>
      simp_all +decide [GoMap.get_set, GoMap.get]

/-- The extension loop of `toHeaders` ends without error when every value it
meets serialises. -/
theorem extensionHeaders_ok (E : Env) (l : GoMap (Dyn E.Value)) (h : Header)
    (hser : ∀ kv ∈ l, ∃ s, E.jsonMarshal kv.2 = .ok s) :
    ∃ h', l.foldlM (extensionHeader E) h = .ok h' := by
  induction l generalizing h with
  | nil => exact ⟨h, rfl⟩
  | cons kv l ih =>
    obtain ⟨s, hs⟩ := hser kv (List.mem_cons_self _ _)
    simp only [List.foldlM_cons, bind, Except.bind, extensionHeader, hs]
    exact ih _ (fun kv' hkv' => hser kv' (List.mem_cons_of_mem _ hkv'))

/-- Method `toHeaders` returns a header mapping when every extension value
serialises. -/
theorem toHeaders_ok (E : Env) (v : CodecV01) (ec : E.Ctx)
    (hser : ∀ kv ∈ ec.Extensions.getD [], ∃ s, E.jsonMarshal kv.2 = .ok s) :
    ∃ h, toHeaders E v ec = .ok h := by
  apply extensionHeaders_ok
  intro kv hkv
  exact hser kv ((E.rangeExtensions_perm _).mem_iff.mp hkv)

theorem hdrContentType_not_ext : hdrContentType.take 5 ≠ extPrefix := by decide

theorem hdrCloudEventsVersion_not_ext : hdrCloudEventsVersion.take 5 ≠ extPrefix := by decide

theorem hdrEventID_not_ext : hdrEventID.take 5 ≠ extPrefix := by decide

theorem hdrEventType_not_ext : hdrEventType.take 5 ≠ extPrefix := by decide

theorem hdrSource_not_ext : hdrSource.take 5 ≠ extPrefix := by decide

theorem hdrEventTime_not_ext : hdrEventTime.take 5 ≠ extPrefix := by decide

theorem hdrEventTypeVersion_not_ext : hdrEventTypeVersion.take 5 ≠ extPrefix := by decide

theorem hdrSchemaURL_not_ext : hdrSchemaURL.take 5 ≠ extPrefix := by decide

/-! ## Lemmas on the map-writing loops -/

theorem GoMap.mem_set {β : Type} (m : GoMap β) (k : Str) (v : β) (x : Str × β)
    (hx : x ∈ GoMap.set m k v) : x ∈ m ∨ x = (k, v) := by
  induction m with
  | nil =>
    simp only [GoMap.set, List.mem_singleton] at hx
    exact Or.inr hx
  | cons p m ih =>
    obtain ⟨k', v'⟩ := p
    simp only [GoMap.set] at hx
    split_ifs at hx with h
    · rcases List.mem_cons.mp hx with h1 | h1
      · right; rw [h1, h]
      · left; exact List.mem_cons_of_mem _ h1
    · rcases List.mem_cons.mp hx with h1 | h1
      · left; rw [h1]; exact List.mem_cons_self _ _
      · rcases ih h1 with h2 | h2
        · left; exact List.mem_cons_of_mem _ h2
        · right; exact h2

theorem GoMap.key_mem_set {β : Type} (m : GoMap β) (k : Str) (v : β) (x : Str × β)
    (hx : x ∈ m) : ∃ y ∈ GoMap.set m k v, y.1 = x.1 := by
  induction m with
  | nil => cases hx
  | cons p m ih =>
    obtain ⟨k', v'⟩ := p
    simp only [GoMap.set]
    split_ifs with h
    · rcases List.mem_cons.mp hx with h1 | h1
      · exact ⟨(k', v), List.mem_cons_self _ _, by rw [h1]⟩
      · exact ⟨x, List.mem_cons_of_mem _ h1, rfl⟩
    · rcases List.mem_cons.mp hx with h1 | h1
      · exact ⟨(k', v'), List.mem_cons_self _ _, by rw [h1]⟩
      · obtain ⟨y, hy, hy1⟩ := ih h1
        exact ⟨y, List.mem_cons_of_mem _ hy, hy1⟩

theorem writeAll_nil {α β : Type} (w : α → Option (Str × β)) (init : GoMap β) :
    writeAll w [] init = init := rfl

theorem writeAll_cons {α β : Type} (w : α → Option (Str × β)) (x : α) (l : List α)
    (init : GoMap β) :
    writeAll w (x :: l) init = writeAll w l (writeEntry init (w x)) := rfl

/-- A key that no turn writes keeps its entry. -/
theorem writeAll_get_other {α β : Type} (w : α → Option (Str × β)) (l : List α)
    (init : GoMap β) (key : Str) (hno : ∀ x ∈ l, ∀ v, w x ≠ some (key, v)) :
    GoMap.get (writeAll w l init) key = GoMap.get init key := by
  induction l generalizing init with
  | nil => rfl
  | cons x l ih =>
    rw [writeAll_cons, ih _ (fun y hy => hno y (List.mem_cons_of_mem _ hy))]
    cases hw : w x with
    | none => rfl
    | some kv =>
      obtain ⟨k, v⟩ := kv
      simp only [writeEntry]
      apply GoMap.get_set_ne
      intro hk
      exact hno x (List.mem_cons_self _ _) v (by rw [hw, hk])

/-- A key that some turn writes, all turns that write it writing the same
value, ends with that value, in whatever order the turns come. -/
theorem writeAll_get_const {α β : Type} (w : α → Option (Str × β)) (l : List α)
    (init : GoMap β) (key : Str) (val : β)
    (hall : ∀ x ∈ l, ∀ v, w x = some (key, v) → v = val)
    (hex : (∃ x ∈ l, ∃ v, w x = some (key, v)) ∨ GoMap.get init key = some val) :
    GoMap.get (writeAll w l init) key = some val := by
  induction l generalizing init with
  | nil =>
    rcases hex with ⟨x, hx, _⟩ | h
    · cases hx
    · exact h
  | cons x l ih =>
    rw [writeAll_cons]
    apply ih _ (fun y hy => hall y (List.mem_cons_of_mem _ hy))
    cases hw : w x with
    | none =>
      rcases hex with ⟨y, hy, v, hv⟩ | h
      · rcases List.mem_cons.mp hy with h1 | h1
        · rw [h1, hw] at hv; cases hv
        · exact Or.inl ⟨y, h1, v, hv⟩
      · exact Or.inr h
    | some kv =>
      obtain ⟨k, v⟩ := kv
      simp only [writeEntry]
      by_cases hk : k = key
      · right
        have hv : v = val := hall x (List.mem_cons_self _ _) v (by rw [hw, hk])
        rw [hk, hv]
        exact GoMap.get_set_self _ _ _
      · rcases hex with ⟨y, hy, v', hv'⟩ | h
        · rcases List.mem_cons.mp hy with h1 | h1
          · rw [h1, hw] at hv'
            simp only [Option.some.injEq, Prod.mk.injEq] at hv'
            exact absurd hv'.1 hk
          · exact Or.inl ⟨y, h1, v', hv'⟩
        · right
          rw [GoMap.get_set_ne _ _ _ _ hk]
          exact h

/-- Every entry of the result was in the map at the start or was written by
a turn. -/
theorem writeAll_mem {α β : Type} (w : α → Option (Str × β)) (l : List α)
    (init : GoMap β) (y : Str × β) (hy : y ∈ writeAll w l init) :
    y ∈ init ∨ ∃ x ∈ l, w x = some y := by
  induction l generalizing init with
  | nil => exact Or.inl hy
  | cons x l ih =>
    rw [writeAll_cons] at hy
    rcases ih _ hy with h | ⟨z, hz, hwz⟩
    · cases hw : w x with
      | none =>
        rw [hw] at h
        exact Or.inl h
      | some kv =>
        obtain ⟨k, v⟩ := kv
        rw [hw] at h
        rcases GoMap.mem_set _ _ _ _ h with h1 | h1
        · exact Or.inl h1
        · exact Or.inr ⟨x, List.mem_cons_self _ _, by rw [hw, h1]⟩
    · exact Or.inr ⟨z, List.mem_cons_of_mem _ hz, hwz⟩

/-- No key is lost by the loop. -/
theorem writeAll_key_mem {α β : Type} (w : α → Option (Str × β)) (l : List α)
    (init : GoMap β) (x : Str × β) (hx : x ∈ init) :
    ∃ y ∈ writeAll w l init, y.1 = x.1 := by
  induction l generalizing init x with
  | nil => exact ⟨x, hx, rfl⟩
  | cons a l ih =>
    rw [writeAll_cons]
    cases hw : w a with
    | none => exact ih _ x hx
    | some kv =>
      obtain ⟨k, v⟩ := kv
      obtain ⟨y, hy, hy1⟩ := GoMap.key_mem_set init k v x hx
      obtain ⟨z, hz, hz1⟩ := ih (writeEntry init (some (k, v))) y hy
      exact ⟨z, hz, hz1.trans hy1⟩

/-- A loop none of whose turns writes leaves the map as it was. -/
theorem writeAll_none {α β : Type} (w : α → Option (Str × β)) (l : List α)
    (init : GoMap β) (hno : ∀ x ∈ l, w x = none) : writeAll w l init = init := by
  induction l generalizing init with
  | nil => rfl
  | cons x l ih =>
    rw [writeAll_cons, hno x (List.mem_cons_self _ _)]
    exact ih _ (fun y hy => hno y (List.mem_cons_of_mem _ hy))

/-- A fallible loop whose turns all succeed computes `writeAll`. -/
theorem foldlM_eq_writeAll {α β : Type} (step : GoMap β → α → Except Fault (GoMap β))
    (w : α → Option (Str × β)) (l : List α) (init : GoMap β)
    (hstep : ∀ x ∈ l, ∀ acc, step acc x = .ok (writeEntry acc (w x))) :
    l.foldlM step init = .ok (writeAll w l init) := by
  induction l generalizing init with
  | nil => rfl
  | cons x l ih =>
    simp only [List.foldlM_cons, bind, Except.bind, hstep x (List.mem_cons_self _ _)]
    rw [writeAll_cons]
    exact ih _ (fun y hy => hstep y (List.mem_cons_of_mem _ hy))

/-- A fallible loop that ends without fault has computed `writeAll`. -/
theorem writeAll_of_foldlM {α β : Type} (step : GoMap β → α → Except Fault (GoMap β))
    (w : α → Option (Str × β)) (l : List α) (init r : GoMap β)
    (hstep : ∀ acc x r', step acc x = .ok r' → r' = writeEntry acc (w x))
    (hok : l.foldlM step init = .ok r) : r = writeAll w l init := by
  induction l generalizing init with
  | nil =>
    simp only [List.foldlM_nil, pure, Except.pure, Except.ok.injEq] at hok
    rw [← hok]
    rfl
  | cons x l ih =>
    simp only [List.foldlM_cons, bind, Except.bind] at hok
    cases hs : step init x with
    | error err => simp [hs] at hok
    | ok r' =>
      simp only [hs] at hok
      rw [writeAll_cons, ← hstep _ _ _ hs]
      exact ih _ hok

theorem extensionHeader_step (E : Env) (acc : Header) (x : Str × Dyn E.Value) (r : Header)
    (h : extensionHeader E acc x = .ok r) : r = writeEntry acc (headerWrite E x) := by
  unfold extensionHeader at h
  unfold headerWrite
  cases hm : E.jsonMarshal x.2 with
  | error err => simp [hm] at h
  | ok encoded =>
    simp only [hm, Except.ok.injEq] at h
    rw [← h]
    rfl

theorem titleFrom_word (E : Env) (prev : Char) (s : Str)
    (hprev : isSeparator E prev = false) (hs : ∀ c ∈ s, isSeparator E c = false) :
    titleFrom E prev s = s := by
  induction s generalizing prev with
  | nil => rfl
  | cons r rs ih =>
    simp only [titleFrom, hprev, Bool.false_eq_true, if_false]
    rw [ih r (hs r (List.mem_cons_self _ _)) (fun c hc => hs c (List.mem_cons_of_mem _ hc))]

/-- On a name of one word `strings.Title` capitalises the first character
and leaves the others unchanged. -/
theorem Title_word (E : Env) (s : Str) (hs : ∀ c ∈ s, isSeparator E c = false) :
    Title E s = capitalizeFirst E s := by
  cases s with
  | nil => rfl
  | cons r rs =>
    have hsp : isSeparator E ' ' = true := rfl
    simp only [Title, titleFrom, hsp, if_true, capitalizeFirst]
    rw [titleFrom_word E r rs (hs r (List.mem_cons_self _ _))
      (fun c hc => hs c (List.mem_cons_of_mem _ hc))]

/-! ## Lemmas on `fromHeaders` -/

theorem normalizeHeaders_eq (E : Env) (h : Header) :
    normalizeHeaders E h = writeAll normalWrite (E.rangeHeader 0 h) h := by
  unfold normalizeHeaders writeAll
  congr 1
  funext acc kv
  unfold normalWrite
  split_ifs <;> rfl

/-- Every entry of the normalised mapping carries the values of an entry of
the mapping received, under that entry's name or its canonical form. -/
theorem normalizeHeaders_mem (E : Env) (h : Header) (y : Str × List Str)
    (hy : y ∈ normalizeHeaders E h) :
    ∃ x ∈ h, x.2 = y.2 ∧ (y.1 = x.1 ∨ y.1 = CanonicalMIMEHeaderKey x.1) := by
  rw [normalizeHeaders_eq] at hy
  rcases writeAll_mem _ _ _ _ hy with h1 | ⟨x, hx, hw⟩
  · exact ⟨y, h1, rfl, Or.inl rfl⟩
  · have hx' : x ∈ h := (E.rangeHeader_perm 0 h).mem_iff.mp hx
    unfold normalWrite at hw
    split_ifs at hw
    simp only [Option.some.injEq] at hw
    exact ⟨x, hx', by rw [← hw], Or.inr (by rw [← hw])⟩

/-- Every name of the mapping received is a name of the normalised mapping. -/
theorem normalizeHeaders_key_mem (E : Env) (h : Header) (x : Str × List Str)
    (hx : x ∈ h) : ∃ y ∈ normalizeHeaders E h, y.1 = x.1 := by
  rw [normalizeHeaders_eq]
  exact writeAll_key_mem _ _ _ x hx

theorem normalizeHeaders_fold (E : Env) (h : Header) (y : Str × List Str)
    (hy : y ∈ normalizeHeaders E h) :
    ∃ x ∈ h, x.2 = y.2 ∧ y.1.map lowerASCII = x.1.map lowerASCII ∧
      byteLen y.1 = byteLen x.1 := by
  obtain ⟨x, hx, h2, h1 | h1⟩ := normalizeHeaders_mem E h y hy
  · exact ⟨x, hx, h2, by rw [h1], by rw [h1]⟩
  · exact ⟨x, hx, h2, by rw [h1, (CanonicalMIMEHeaderKey_fold x.1).1],
      by rw [h1, (CanonicalMIMEHeaderKey_fold x.1).2]⟩

theorem byteLen_extPrefix : byteLen extPrefix = 5 := by decide

/-- A turn of the extension loop of `fromHeaders` on a name of five bytes or
more, with a value when it has the marker, does not panic. -/
theorem extensionEntry_ok (E : Env) (kv : Str × List Str) (hlen : 5 ≤ byteLen kv.1)
    (hval : hasExtPrefix kv.1 = true → kv.2 ≠ []) (acc : GoMap (Dyn E.Value)) :
    extensionEntry E acc kv = .ok (writeEntry acc (entryWrite E kv)) := by
  unfold extensionEntry entryWrite
  rw [byteLen_extPrefix, if_neg (by omega)]
  by_cases hp : hasExtPrefix kv.1 = true
  · have hp' : equalFoldPrefix (List.take 5 kv.1) = true := hp
    rw [if_pos hp', if_pos hp]
    cases hv : kv.2 with
    | nil => exact absurd hv (hval hp)
    | cons v0 vs =>
      simp only [decodeExtension, writeEntry]
      cases E.jsonUnmarshal v0 <;> rfl
  · have hp' : ¬ equalFoldPrefix (List.take 5 kv.1) = true := hp
    rw [if_neg hp', if_neg hp]
    rfl

/-- On a mapping whose names have five bytes or more and whose marked headers
have a value, `fromHeaders` returns the context read from the normalised
mapping. -/
theorem fromHeaders_eq (E : Env) (v : CodecV01) (h : Header)
    (hlen : ∀ kv ∈ h, 5 ≤ byteLen kv.1)
    (hval : ∀ kv ∈ h, hasExtPrefix kv.1 = true → kv.2 ≠ []) :
    fromHeaders E v h = .ok {
      CloudEventsVersion := Header.Get (normalizeHeaders E h) hdrCloudEventsVersion
      EventID := Header.Get (normalizeHeaders E h) hdrEventID
      EventType := Header.Get (normalizeHeaders E h) hdrEventType
      Source := (E.ParseURLRef (Header.Get (normalizeHeaders E h) hdrSource)).getD E.zeroURLRef
      EventTime := E.ParseTimestamp (Header.Get (normalizeHeaders E h) hdrEventTime)
      EventTypeVersion := Header.Get (normalizeHeaders E h) hdrEventTypeVersion
      SchemaURL := E.ParseURLRef (Header.Get (normalizeHeaders E h) hdrSchemaURL)
      ContentType := Header.Get (normalizeHeaders E h) hdrContentType
      Extensions :=
        if 0 < (writeAll (entryWrite E) (E.rangeHeader 1 (normalizeHeaders E h)) []).length
        then some (writeAll (entryWrite E) (E.rangeHeader 1 (normalizeHeaders E h)) [])
        else none } := by
  have hloop : (E.rangeHeader 1 (normalizeHeaders E h)).foldlM (extensionEntry E) []
      = .ok (writeAll (entryWrite E) (E.rangeHeader 1 (normalizeHeaders E h)) []) := by
    apply foldlM_eq_writeAll
    intro y hy acc
    have hy' : y ∈ normalizeHeaders E h := (E.rangeHeader_perm 1 _).mem_iff.mp hy
    obtain ⟨x, hx, h2, h1, h3⟩ := normalizeHeaders_fold E h y hy'
    apply extensionEntry_ok
    · rw [h3]; exact hlen x hx
    · intro hp
      rw [← h2]
      exact hval x hx (by rw [← hasExtPrefix_of_fold x.1 y.1 h1]; exact hp)
  unfold fromHeaders
  simp only [bind, Except.bind, hloop, pure, Except.pure]

theorem GoMap.length_pos_of_get {β : Type} (m : GoMap β) (k : Str) (v : β)
    (h : GoMap.get m k = some v) : 0 < m.length := by
  cases m with
  | nil => simp [GoMap.get] at h
  | cons p m => simp

theorem GoMap.mem_of_get {β : Type} (m : GoMap β) (k : Str) (v : β)
    (h : GoMap.get m k = some v) : (k, v) ∈ m := by
  induction m with
  | nil => simp [GoMap.get] at h
  | cons p m ih =>
    obtain ⟨k', v'⟩ := p
    simp only [GoMap.get] at h
    split_ifs at h with hk
    · simp only [Option.some.injEq] at h
      rw [← hk, ← h]
      exact List.mem_cons_self _ _
    · exact List.mem_cons_of_mem _ (ih h)

/-! ## Lemmas on the binary round trip -/

theorem GoMap.forall_mem_set {β : Type} (P : Str × β → Prop) (m : GoMap β) (k : Str)
    (v : β) (hm : ∀ y ∈ m, P y) (hkv : P (k, v)) : ∀ y ∈ GoMap.set m k v, P y := by
  intro y hy
  rcases GoMap.mem_set m k v y hy with h | h
  · exact hm y h
  · rw [h]; exact hkv

/-- The entries of the attribute headers: the four fixed ones with their
values, and otherwise only the optional names and `Content-Type`. -/
theorem attributeHeaders_mem (E : Env) (v : CodecV01) (ec : E.Ctx) :
    ∀ x ∈ attributeHeaders E v ec,
      x = (hdrCloudEventsVersion, [ec.CloudEventsVersion]) ∨ x = (hdrEventID, [ec.EventID]) ∨
      x = (hdrEventType, [ec.EventType]) ∨ x = (hdrSource, [E.urlString ec.Source]) ∨
      x.1 = hdrEventTime ∨ x.1 = hdrEventTypeVersion ∨ x.1 = hdrSchemaURL ∨
      x.1 = hdrContentType := by
  rcases ec with ⟨cv, id, ty, src, et, etv, su, ct, ex⟩
  simp only [attributeHeaders, Header.Set, canonical_hdrContentType]
  rcases et with _ | t <;> rcases su with _ | u <;> dsimp only <;> split_ifs
  all_goals repeat' (first | apply GoMap.forall_mem_set | simp)

/-- A name of the attribute headers is none of the marked names and has five
bytes or more. -/
theorem attributeHeaders_names (E : Env) (v : CodecV01) (ec : E.Ctx) (x : Str × List Str)
    (hx : x ∈ attributeHeaders E v ec) : 5 ≤ byteLen x.1 ∧ hasExtPrefix x.1 = false := by
  have hkey : x.1 = hdrCloudEventsVersion ∨ x.1 = hdrEventID ∨ x.1 = hdrEventType ∨
      x.1 = hdrSource ∨ x.1 = hdrEventTime ∨ x.1 = hdrEventTypeVersion ∨
      x.1 = hdrSchemaURL ∨ x.1 = hdrContentType := by
    rcases attributeHeaders_mem E v ec x hx with h | h | h | h | h | h | h | h <;> simp [h]
  rcases hkey with h | h | h | h | h | h | h | h <;> rw [h] <;> decide

/-- Reading one of the four fixed attributes back from the normalised
attribute headers gives the value written. -/
theorem normalizeHeaders_attribute (E : Env) (v : CodecV01) (ec : E.Ctx) (key val : Str)
    (hmem : (key, [val]) ∈ attributeHeaders E v ec)
    (hkey : key ≠ CanonicalMIMEHeaderKey key)
    (honly : ∀ x ∈ attributeHeaders E v ec,
      CanonicalMIMEHeaderKey x.1 = CanonicalMIMEHeaderKey key → x = (key, [val])) :
    Header.Get (normalizeHeaders E (attributeHeaders E v ec)) key = val := by
  have hget : GoMap.get (normalizeHeaders E (attributeHeaders E v ec))
      (CanonicalMIMEHeaderKey key) = some [val] := by
    rw [normalizeHeaders_eq]
    apply writeAll_get_const
    · intro x hx w hw
      have hx' := (E.rangeHeader_perm 0 _).mem_iff.mp hx
      unfold normalWrite at hw
      split_ifs at hw
      simp only [Option.some.injEq, Prod.mk.injEq] at hw
      rw [← hw.2, honly x hx' hw.1]
    · left
      refine ⟨(key, [val]), (E.rangeHeader_perm 0 _).mem_iff.mpr hmem, [val], ?_⟩
      simp [normalWrite, hkey]
  simp [Header.Get, hget]

/-- Among the attribute headers, the header of a fixed attribute is the only
one with its canonical name. -/
theorem attributeHeaders_only (E : Env) (v : CodecV01) (ec : E.Ctx) (x : Str × List Str)
    (hx : x ∈ attributeHeaders E v ec) :
    (CanonicalMIMEHeaderKey x.1 = CanonicalMIMEHeaderKey hdrCloudEventsVersion →
      x = (hdrCloudEventsVersion, [ec.CloudEventsVersion])) ∧
    (CanonicalMIMEHeaderKey x.1 = CanonicalMIMEHeaderKey hdrEventID →
      x = (hdrEventID, [ec.EventID])) ∧
    (CanonicalMIMEHeaderKey x.1 = CanonicalMIMEHeaderKey hdrEventType →
      x = (hdrEventType, [ec.EventType])) ∧
    (CanonicalMIMEHeaderKey x.1 = CanonicalMIMEHeaderKey hdrSource →
      x = (hdrSource, [E.urlString ec.Source])) := by
  rcases attributeHeaders_mem E v ec x hx with h | h | h | h | h | h | h | h <;>
    refine ⟨?_, ?_, ?_, ?_⟩ <;> intro hc <;> simp only [h] at hc ⊢ <;>
    exact absurd hc (by decide)

/-- Without extensions `toHeaders` returns the attribute headers. -/
theorem toHeaders_no_extensions (E : Env) (v : CodecV01) (ec : E.Ctx)
    (hext : ec.Extensions.getD [] = []) :
    toHeaders E v ec = .ok (attributeHeaders E v ec) := by
  unfold toHeaders
  rw [hext, List.Perm.eq_nil (E.rangeExtensions_perm [])]
  rfl

/-! ## Encoding inspection and dispatch -/

/-- C2: a message whose declared protocol version differs from the V01 version
is classified `Unknown` by `inspectEncoding`, whatever its headers are. -/
theorem inspectEncoding_version_mismatch (E : Env) (v : CodecV01) (msg : E.Msg)
    (hver : E.messageVersion msg ≠ E.CloudEventsVersionV01) :
    inspectEncoding E v msg = Encoding.Unknown := by
  simp [inspectEncoding, hver]

/-- C2 at a message declaring version `0.2` with content type
`application/json`. -/
theorem inspectEncoding_version_mismatch_witness :
    Header.Get (sampleMessage "0.2".toList applicationJSON).Header hdrContentType
      = applicationJSON ∧
    inspectEncoding sampleEnv ⟨.Default⟩
        (.http (sampleMessage "0.2".toList applicationJSON)) = Encoding.Unknown :=
  ⟨by decide, inspectEncoding_version_mismatch sampleEnv ⟨.Default⟩ _ (by decide)⟩

/-- C3: for an HTTP message declaring the V01 version, `inspectEncoding` gives
`BinaryV01` exactly when the `Content-Type` value is `application/json`,
`StructuredV01` exactly when it is `application/cloudevents+json`, and
`Unknown` for every other value, an absent header included. -/
theorem inspectEncoding_content_type (E : Env) (v : CodecV01) (m : Message)
    (hver : E.messageVersion (.http m) = E.CloudEventsVersionV01) :
    (inspectEncoding E v (.http m) = Encoding.BinaryV01 ↔
        Header.Get m.Header hdrContentType = applicationJSON) ∧
    (inspectEncoding E v (.http m) = Encoding.StructuredV01 ↔
        Header.Get m.Header hdrContentType = applicationCloudEventsJSON) ∧
    (Header.Get m.Header hdrContentType ≠ applicationJSON →
      Header.Get m.Header hdrContentType ≠ applicationCloudEventsJSON →
        inspectEncoding E v (.http m) = Encoding.Unknown) ∧
    (GoMap.get m.Header hdrContentType = none →
        inspectEncoding E v (.http m) = Encoding.Unknown) := by
  have hne : applicationJSON ≠ applicationCloudEventsJSON := by decide
  have hcanon : CanonicalMIMEHeaderKey hdrContentType = hdrContentType := by decide
  refine ⟨?_, ?_, ?_, ?_⟩
  · by_cases h1 : Header.Get m.Header hdrContentType = applicationJSON
    · simp [inspectEncoding, hver, h1]
    · by_cases h2 : Header.Get m.Header hdrContentType = applicationCloudEventsJSON
      · simp [inspectEncoding, hver, h2, hne.symm]
      · simp [inspectEncoding, hver, h1, h2]
  · by_cases h1 : Header.Get m.Header hdrContentType = applicationJSON
    · simp [inspectEncoding, hver, h1, hne]
    · by_cases h2 : Header.Get m.Header hdrContentType = applicationCloudEventsJSON
      · simp [inspectEncoding, hver, h2, hne.symm]
      · simp [inspectEncoding, hver, h1, h2]
  · intro h1 h2
    simp [inspectEncoding, hver, h1, h2]
  · intro habs
    have hget : Header.Get m.Header hdrContentType = [] := by
      simp [Header.Get, hcanon, habs]
    have e1 : ([] : Str) ≠ applicationJSON := by decide
    have e2 : ([] : Str) ≠ applicationCloudEventsJSON := by decide
    simp [inspectEncoding, hver, hget, e1, e2]

/-- C3 at a V01 message whose content type carries a charset parameter. -/
theorem inspectEncoding_content_type_witness :
    inspectEncoding sampleEnv ⟨.Default⟩
        (.http (sampleMessage "0.1".toList "application/json; charset=utf-8".toList))
      = Encoding.Unknown :=
  (inspectEncoding_content_type sampleEnv ⟨.Default⟩
      (sampleMessage "0.1".toList "application/json; charset=utf-8".toList)
      (by decide)).2.2.1 (by decide) (by decide)

/-- C4: `Encode` in mode `Default` returns what it returns in mode `BinaryV01`,
in mode `StructuredV01` it returns the result of the structured encoder, and
in every other mode it returns an unknown-encoding error and no message. -/
theorem Encode_dispatch (E : Env) (e : E.Evt) :
    Encode E ⟨.Default⟩ e = Encode E ⟨.BinaryV01⟩ e ∧
    Encode E ⟨.BinaryV01⟩ e = encodeBinary E ⟨.BinaryV01⟩ e ∧
    Encode E ⟨.StructuredV01⟩ e = encodeStructured E ⟨.StructuredV01⟩ e ∧
    ∀ mode : Encoding, mode ≠ .Default → mode ≠ .BinaryV01 → mode ≠ .StructuredV01 →
      Encode E ⟨mode⟩ e = .error (.unknownEncoding mode) := by
  refine ⟨?_, rfl, rfl, ?_⟩
  · simp [Encode, encodeBinary, toHeaders, attributeHeaders]
  · intro mode h1 h2 h3
    cases mode with
    | Default => exact absurd rfl h1
    | BinaryV01 => exact absurd rfl h2
    | StructuredV01 => exact absurd rfl h3
    | Unknown => rfl
    | other n => rfl

/-- C4 at the mode `Unknown`. -/
theorem Encode_dispatch_witness :
    Encode sampleEnv ⟨.Unknown⟩ (sampleEvent [] none)
      = .error (.unknownEncoding .Unknown) :=
  (Encode_dispatch sampleEnv (sampleEvent [] none)).2.2.2 .Unknown
    (by decide) (by decide) (by decide)

/-- C5: `Decode` returns the result of the binary decoder when inspection
gives `BinaryV01`, of the structured decoder when it gives `StructuredV01`,
and an unknown-encoding error without event when it gives `Unknown`; so it
fails on a mismatched version and on a `Content-Type` that is neither
literal. -/
theorem Decode_dispatch (E : Env) (v : CodecV01) (msg : E.Msg) :
    (inspectEncoding E v msg = Encoding.BinaryV01 →
        Decode E v msg = decodeBinary E v msg) ∧
    (inspectEncoding E v msg = Encoding.StructuredV01 →
        Decode E v msg = decodeStructured E v msg) ∧
    (inspectEncoding E v msg = Encoding.Unknown →
        Decode E v msg = .error .unknownMessageEncoding) ∧
    (E.messageVersion msg ≠ E.CloudEventsVersionV01 →
        Decode E v msg = .error .unknownMessageEncoding) ∧
    (∀ m : Message, msg = .http m →
      Header.Get m.Header hdrContentType ≠ applicationJSON →
      Header.Get m.Header hdrContentType ≠ applicationCloudEventsJSON →
        Decode E v msg = .error .unknownMessageEncoding) := by
  refine ⟨?_, ?_, ?_, ?_, ?_⟩
  · intro h; simp [Decode, h]
  · intro h; simp [Decode, h]
  · intro h; simp [Decode, h]
  · intro h; simp [Decode, inspectEncoding, h]
  · intro m hm h1 h2
    subst hm
    by_cases hver : E.messageVersion (.http m) = E.CloudEventsVersionV01
    · simp [Decode, inspectEncoding, hver, h1, h2]
    · simp [Decode, inspectEncoding, hver]

/-- C5 at a V01 message of content type `text/plain`. -/
theorem Decode_dispatch_witness :
    Decode sampleEnv ⟨.Default⟩ (.http (sampleMessage "0.1".toList "text/plain".toList))
      = .error .unknownMessageEncoding :=
  (Decode_dispatch sampleEnv ⟨.Default⟩
      (.http (sampleMessage "0.1".toList "text/plain".toList))).2.2.2.2
    _ rfl (by decide) (by decide)

/-! ## Binary and structured headers -/

/-- C6: in mode `Default` or `BinaryV01`, `toHeaders` returns a header mapping
whenever the extension values serialise, and in every mapping it returns the
`Content-Type` header has exactly one value: `application/json` when the
context declares no content type, the declared content type otherwise. -/
theorem toHeaders_content_type (E : Env) (v : CodecV01) (ec : E.Ctx)
    (hmode : v.Encoding = Encoding.Default ∨ v.Encoding = Encoding.BinaryV01) :
    ((∀ kv ∈ ec.Extensions.getD [], ∃ s, E.jsonMarshal kv.2 = .ok s) →
      ∃ h, toHeaders E v ec = .ok h) ∧
    ∀ h, toHeaders E v ec = .ok h →
      (ec.ContentType = [] → GoMap.get h hdrContentType = some [applicationJSON]) ∧
      (ec.ContentType ≠ [] → GoMap.get h hdrContentType = some [ec.ContentType]) := by
  refine ⟨toHeaders_ok E v ec, ?_⟩
  intro h hok
  have hget := extensionHeaders_get_other E _ _ _ hdrContentType hdrContentType_not_ext hok
  rw [attributeHeaders_contentType E v ec hmode] at hget
  constructor
  · intro hct; simpa [hct] using hget
  · intro hct; simpa [hct] using hget

/-- C6 at the sample context without content type, in mode `Default`. -/
theorem toHeaders_content_type_witness :
    ∃ h, toHeaders sampleEnv ⟨.Default⟩ (sampleContext [] none) = .ok h ∧
      GoMap.get h hdrContentType = some [applicationJSON] := by
  obtain ⟨hex, hall⟩ :=
    toHeaders_content_type sampleEnv ⟨.Default⟩ (sampleContext [] none) (Or.inl rfl)
  obtain ⟨h, hh⟩ := hex (by intro kv hkv; simp [sampleContext] at hkv)
  exact ⟨h, hh, (hall h hh).1 rfl⟩

/-- C7: when `encodeStructured` succeeds, the header mapping of its message is
the single entry `Content-Type` with the single value
`application/cloudevents+json`, whatever content type the event declares; in
particular the value is never `application/json`. -/
theorem encodeStructured_header (E : Env) (v : CodecV01) (e : E.Evt) (msg : E.Msg)
    (hok : encodeStructured E v e = .ok msg) :
    ∃ m : Message, msg = .http m ∧
      m.Header = [(hdrContentType, [applicationCloudEventsJSON])] ∧
      GoMap.get m.Header hdrContentType ≠ some [applicationJSON] := by
  unfold encodeStructured at hok
  simp only [bind, Except.bind, pure, Except.pure] at hok
  cases h1 : liftLib (E.marshalEvent (E.AsV01 e.Context)) with
  | error err => simp [h1] at hok
  | ok ctx =>
    simp only [h1] at hok
    cases h2 : liftLib (E.jsonUnmarshalObject ctx) with
    | error err => simp [h2] at hok
    | ok b =>
      simp only [h2] at hok
      cases h3 : structuredData E e b with
      | error err => simp [h3] at hok
      | ok b' =>
        simp only [h3] at hok
        cases h4 : liftLib (E.jsonMarshalObject b') with
        | error err => simp [h4] at hok
        | ok body =>
          simp only [h4, Except.ok.injEq] at hok
          refine ⟨_, hok.symm, ?_, ?_⟩
          · simp [Header.Set, canonical_hdrContentType, GoMap.set]
          · simp +decide [Header.Set, canonical_hdrContentType, GoMap.set, GoMap.get]

/-- C7 at the sample event declaring content type `application/json`. -/
theorem encodeStructured_header_witness :
    ∃ m : Message,
      encodeStructured sampleEnv ⟨.StructuredV01⟩ (sampleEvent applicationJSON none)
        = .ok (.http m) ∧
      m.Header = [(hdrContentType, [applicationCloudEventsJSON])] := by
  obtain ⟨m, hm, hh, _⟩ :=
    encodeStructured_header sampleEnv ⟨.StructuredV01⟩ (sampleEvent applicationJSON none)
      (.http ⟨[(hdrContentType, [applicationCloudEventsJSON])], some []⟩) rfl
  exact ⟨m, by rw [← hm]; rfl, hh⟩

/-- C8: `toHeaders` returns a header mapping whenever the extension values
serialise, and every mapping it returns holds the four fixed headers, each
with the one value of its attribute, holds `CE-EventTime` exactly when the
event time is present and non-zero, `CE-EventTypeVersion` exactly when the
type version is non-empty and `CE-SchemaURL` exactly when the schema URL is
present, each then with the one value of its attribute. -/
theorem toHeaders_attributes (E : Env) (v : CodecV01) (ec : E.Ctx) :
    ((∀ kv ∈ ec.Extensions.getD [], ∃ s, E.jsonMarshal kv.2 = .ok s) →
      ∃ h, toHeaders E v ec = .ok h) ∧
    ∀ h, toHeaders E v ec = .ok h →
      GoMap.get h hdrCloudEventsVersion = some [ec.CloudEventsVersion] ∧
      GoMap.get h hdrEventID = some [ec.EventID] ∧
      GoMap.get h hdrEventType = some [ec.EventType] ∧
      GoMap.get h hdrSource = some [E.urlString ec.Source] ∧
      (GoMap.get h hdrEventTime ≠ none ↔
        ∃ t, ec.EventTime = some t ∧ E.timeIsZero t = false) ∧
      (∀ t, ec.EventTime = some t → E.timeIsZero t = false →
        GoMap.get h hdrEventTime = some [E.timeString t]) ∧
      (GoMap.get h hdrEventTypeVersion ≠ none ↔ ec.EventTypeVersion ≠ []) ∧
      (ec.EventTypeVersion ≠ [] →
        GoMap.get h hdrEventTypeVersion = some [ec.EventTypeVersion]) ∧
      (GoMap.get h hdrSchemaURL ≠ none ↔ ec.SchemaURL ≠ none) ∧
      (∀ u, ec.SchemaURL = some u → GoMap.get h hdrSchemaURL = some [E.urlString u]) := by
  refine ⟨toHeaders_ok E v ec, ?_⟩
  intro h hok
  obtain ⟨f1, f2, f3, f4⟩ := attributeHeaders_fixed E v ec
  obtain ⟨o1, o2, o3⟩ := attributeHeaders_optional E v ec
  rw [← extensionHeaders_get_other E _ _ _ _ hdrCloudEventsVersion_not_ext hok] at f1
  rw [← extensionHeaders_get_other E _ _ _ _ hdrEventID_not_ext hok] at f2
  rw [← extensionHeaders_get_other E _ _ _ _ hdrEventType_not_ext hok] at f3
  rw [← extensionHeaders_get_other E _ _ _ _ hdrSource_not_ext hok] at f4
  rw [← extensionHeaders_get_other E _ _ _ _ hdrEventTime_not_ext hok] at o1
  rw [← extensionHeaders_get_other E _ _ _ _ hdrEventTypeVersion_not_ext hok] at o2
  rw [← extensionHeaders_get_other E _ _ _ _ hdrSchemaURL_not_ext hok] at o3
  refine ⟨f1, f2, f3, f4, ?_, ?_, ?_, ?_, ?_, ?_⟩
  · rw [o1]
    cases ht : ec.EventTime with
    | none => simp
    | some t => cases hz : E.timeIsZero t <;> simp [hz]
  · intro t ht hz
    rw [o1, ht]
    simp [hz]
  · rw [o2]
    by_cases he : ec.EventTypeVersion = [] <;> simp [he]
  · intro he
    rw [o2]
    simp [he]
  · rw [o3]
    cases ec.SchemaURL <;> simp
  · intro u hu
    rw [o3, hu]
    rfl

/-- C8 at the sample context, which sets none of the optional attributes. -/
theorem toHeaders_attributes_witness :
    ∃ h, toHeaders sampleEnv ⟨.Default⟩ (sampleContext [] none) = .ok h ∧
      GoMap.get h hdrEventID = some ["1".toList] ∧
      GoMap.get h hdrEventTypeVersion = none := by
  obtain ⟨hex, hall⟩ := toHeaders_attributes sampleEnv ⟨.Default⟩ (sampleContext [] none)
  obtain ⟨h, hh⟩ := hex (by intro kv hkv; simp [sampleContext] at hkv)
  obtain ⟨_, f2, _, _, _, _, o2, _⟩ := hall h hh
  refine ⟨h, hh, f2, ?_⟩
  by_contra hne
  exact (o2.mp hne) rfl

/-! ## Extension headers -/

/-- C9, refuted as stated: the extension `foo-bar = 42` is not written under
`CE-X-Foo-bar`, the marker followed by the name with its first character
capitalised, but under `CE-X-Foo-Bar`; and of the two extensions `foo = 1` and
`Foo = 2`, both named `CE-X-Foo` by that rule, the header holds the
serialisation of only one. -/
theorem toHeaders_extension_name_counterexample :
    (∃ h, toHeaders sampleEnv ⟨.BinaryV01⟩
          (sampleContext [] (some [("foo-bar".toList, sampleNumber 42)])) = .ok h ∧
        sampleEnv.jsonMarshal (sampleNumber 42) = .ok "42".toList ∧
        extPrefix ++ capitalizeFirst sampleEnv "foo-bar".toList = "CE-X-Foo-bar".toList ∧
        GoMap.get h "CE-X-Foo-bar".toList = none ∧
        GoMap.get h "CE-X-Foo-Bar".toList = some ["42".toList]) ∧
    (∃ h, toHeaders sampleEnv ⟨.BinaryV01⟩
          (sampleContext [] (some [("foo".toList, sampleNumber 1), ("Foo".toList, sampleNumber 2)]))
          = .ok h ∧
        sampleEnv.jsonMarshal (sampleNumber 1) = .ok "1".toList ∧
        extPrefix ++ capitalizeFirst sampleEnv "foo".toList = "CE-X-Foo".toList ∧
        GoMap.get h "CE-X-Foo".toList = some ["2".toList]) :=
  ⟨⟨_, rfl, rfl, by decide, by decide, by decide⟩, ⟨_, rfl, rfl, by decide, by decide⟩⟩

/-- C9, amended: when every extension value serialises, `toHeaders` returns a
header mapping, and for every entry `(name, value)` of the extensions whose
title-cased name is shared only by entries with the same value, the mapping
holds under `CE-X-` followed by `strings.Title(name)` exactly one string, the
JSON serialisation of `value`; for a name of one word that header name is the
marker followed by the name with its first character capitalised and the rest
unchanged. -/
theorem toHeaders_extension_headers (E : Env) (v : CodecV01) (ec : E.Ctx)
    (hser : ∀ kv ∈ ec.Extensions.getD [], ∃ s, E.jsonMarshal kv.2 = .ok s) :
    ∃ h, toHeaders E v ec = .ok h ∧
      ∀ name value, (name, value) ∈ ec.Extensions.getD [] →
        (∀ kv ∈ ec.Extensions.getD [], Title E kv.1 = Title E name → kv.2 = value) →
        ∃ s, E.jsonMarshal value = .ok s ∧
          GoMap.get h (extPrefix ++ Title E name) = some [s] ∧
          ((∀ c ∈ name, isSeparator E c = false) →
            GoMap.get h (extPrefix ++ capitalizeFirst E name) = some [s]) := by
  obtain ⟨h, hok⟩ := toHeaders_ok E v ec hser
  refine ⟨h, hok, ?_⟩
  intro name value hmem huniq
  obtain ⟨s, hs⟩ := hser (name, value) hmem
  have hmem' : (name, value) ∈ E.rangeExtensions (ec.Extensions.getD []) :=
    (E.rangeExtensions_perm _).mem_iff.mpr hmem
  have hr := writeAll_of_foldlM (extensionHeader E) (headerWrite E) _ _ _
    (extensionHeader_step E) hok
  have hget : GoMap.get h (extPrefix ++ Title E name) = some [s] := by
    rw [hr]
    apply writeAll_get_const
    · intro x hx val hw
      have hx' : x ∈ ec.Extensions.getD [] := (E.rangeExtensions_perm _).mem_iff.mp hx
      unfold headerWrite at hw
      cases hm : E.jsonMarshal x.2 with
      | error err => simp [hm] at hw
      | ok encoded =>
        simp only [hm, Option.some.injEq, Prod.mk.injEq] at hw
        have hval : x.2 = value := huniq x hx' (List.append_cancel_left hw.1)
        rw [hval, hs] at hm
        simp only [Except.ok.injEq] at hm
        rw [← hw.2, hm]
    · left
      refine ⟨(name, value), hmem', [s], ?_⟩
      simp [headerWrite, hs]
  refine ⟨s, hs, hget, ?_⟩
  intro hword
  rw [← Title_word E name hword]
  exact hget

/-- C9, amended, at the extension `foo-bar = 42`: the header is
`CE-X-Foo-Bar`, its one value `42`, which decodes to the number 42. -/
theorem toHeaders_extension_headers_witness :
    ∃ h, toHeaders sampleEnv ⟨.BinaryV01⟩
        (sampleContext [] (some [("foo-bar".toList, sampleNumber 42)])) = .ok h ∧
      GoMap.get h "CE-X-Foo-Bar".toList = some ["42".toList] ∧
      sampleEnv.jsonUnmarshal "42".toList = .ok (sampleNumber 42) := by
  obtain ⟨h, hok, hall⟩ := toHeaders_extension_headers sampleEnv ⟨.BinaryV01⟩
    (sampleContext [] (some [("foo-bar".toList, sampleNumber 42)]))
    (by
      intro kv hkv
      simp only [sampleContext, Option.getD_some, List.mem_singleton] at hkv
      rw [hkv]
      exact ⟨"42".toList, rfl⟩)
  obtain ⟨s, hs, hget, _⟩ := hall "foo-bar".toList (sampleNumber 42)
    (by simp [sampleContext])
    (by
      intro kv hkv _
      simp only [sampleContext, Option.getD_some, List.mem_singleton] at hkv
      rw [hkv])
  have hs' : s = "42".toList := by
    have : sampleEnv.jsonMarshal (sampleNumber 42) = .ok "42".toList := rfl
    rw [this] at hs
    simp only [Except.ok.injEq] at hs
    exact hs.symm
  refine ⟨h, hok, ?_, rfl⟩
  rw [hs'] at hget
  exact hget

/-! ## Extension decoding -/

/-- C10, refuted as stated: in the mapping `Ce-X-Foo: 1`, `CE-X-FOO: 2` the
header `Ce-X-Foo` has the marker and the valid JSON value `1`, yet the
extension `Foo` decodes to 2: normalisation has stored the values of
`CE-X-FOO` under its canonical name `Ce-X-Foo`. -/
theorem fromHeaders_extension_counterexample :
    ∃ ec ext, fromHeaders sampleEnv ⟨.BinaryV01⟩
        [("Ce-X-Foo".toList, ["1".toList]), ("CE-X-FOO".toList, ["2".toList])] = .ok ec ∧
      hasExtPrefix "Ce-X-Foo".toList = true ∧
      sampleEnv.jsonUnmarshal "1".toList = .ok (sampleNumber 1) ∧
      "Ce-X-Foo".toList.drop 5 = "Foo".toList ∧
      ec.Extensions = some ext ∧
      GoMap.get ext "Foo".toList = some (sampleNumber 2) :=
  ⟨_, _, rfl, by decide, rfl, by decide, rfl, rfl⟩

/-- C10, amended: on a header mapping whose names all have five bytes or more
and whose headers with the marker all have a value, `fromHeaders` returns a
context without error.  For every header of the mapping whose name begins,
case-insensitively, with `CE-X-`, provided the headers whose names differ from
its name only in ASCII case all have the same first value, the extensions hold
under the name with its first five characters removed the JSON decoding of
that first value when it is valid JSON and the first value as a string when it
is not.  Every entry of the extensions comes from a header with the marker,
and the extensions are absent when no header has it. -/
theorem fromHeaders_extensions (E : Env) (v : CodecV01) (h : Header)
    (hlen : ∀ kv ∈ h, 5 ≤ byteLen kv.1)
    (hval : ∀ kv ∈ h, hasExtPrefix kv.1 = true → kv.2 ≠ []) :
    ∃ ec, fromHeaders E v h = .ok ec ∧
      (∀ k v0 vs, (k, v0 :: vs) ∈ h → hasExtPrefix k = true →
        (∀ kv ∈ h, kv.1.map lowerASCII = k.map lowerASCII → kv.2.head? = some v0) →
        ∃ ext, ec.Extensions = some ext ∧
          (∀ tmp, E.jsonUnmarshal v0 = .ok tmp → GoMap.get ext (k.drop 5) = some tmp) ∧
          (∀ err, E.jsonUnmarshal v0 = .error err →
            GoMap.get ext (k.drop 5) = some (.string v0))) ∧
      (∀ ext, ec.Extensions = some ext → ∀ y ∈ ext,
        ∃ kv ∈ h, hasExtPrefix kv.1 = true ∧
          (y.1 = kv.1.drop 5 ∨ y.1 = (CanonicalMIMEHeaderKey kv.1).drop 5) ∧
          ∃ v0, kv.2.head? = some v0 ∧ y.2 = decodeExtension E v0) ∧
      ((∀ kv ∈ h, hasExtPrefix kv.1 = false) → ec.Extensions = none) := by
  refine ⟨_, fromHeaders_eq E v h hlen hval, ?_, ?_, ?_⟩
  · intro k v0 vs hmem hk hsame
    have hget : GoMap.get
        (writeAll (entryWrite E) (E.rangeHeader 1 (normalizeHeaders E h)) []) (k.drop 5)
        = some (decodeExtension E v0) := by
      apply writeAll_get_const
      · intro y hy val hw
        have hy' : y ∈ normalizeHeaders E h := (E.rangeHeader_perm 1 _).mem_iff.mp hy
        obtain ⟨x, hx, h2, h1, _⟩ := normalizeHeaders_fold E h y hy'
        unfold entryWrite at hw
        split_ifs at hw with hp
        cases hv : y.2 with
        | nil => simp [hv] at hw
        | cons w0 ws =>
          simp only [hv, Option.some.injEq, Prod.mk.injEq] at hw
          have hfold : y.1.map lowerASCII = k.map lowerASCII :=
            fold_eq_of_drop_eq k y.1 hk hp hw.1
          have hhead := hsame x hx (by rw [← h1, hfold])
          rw [h2, hv] at hhead
          simp only [List.head?_cons, Option.some.injEq] at hhead
          rw [← hw.2, hhead]
      · left
        obtain ⟨y, hy, hy1⟩ := normalizeHeaders_key_mem E h _ hmem
        have hy1' : y.1 = k := hy1
        obtain ⟨x, hx, h2, h1, _⟩ := normalizeHeaders_fold E h y hy
        have hpx : hasExtPrefix x.1 = true := by
          rw [← hasExtPrefix_of_fold x.1 y.1 h1, hy1']; exact hk
        have hne : y.2 ≠ [] := by rw [← h2]; exact hval x hx hpx
        refine ⟨y, (E.rangeHeader_perm 1 _).mem_iff.mpr hy, ?_⟩
        cases hv : y.2 with
        | nil => exact absurd hv hne
        | cons w0 ws =>
          refine ⟨decodeExtension E w0, ?_⟩
          simp [entryWrite, hy1', hk, hv]
    refine ⟨writeAll (entryWrite E) (E.rangeHeader 1 (normalizeHeaders E h)) [], ?_, ?_, ?_⟩
    · simp only [GoMap.length_pos_of_get _ _ _ hget, if_true]
    · intro tmp htmp
      rw [hget]
      simp [decodeExtension, htmp]
    · intro err herr
      rw [hget]
      simp [decodeExtension, herr]
  · intro ext hext y hy
    simp only at hext
    split_ifs at hext with hpos
    simp only [Option.some.injEq] at hext
    rw [← hext] at hy
    rcases writeAll_mem _ _ _ _ hy with h0 | ⟨z, hz, hw⟩
    · cases h0
    · have hz' : z ∈ normalizeHeaders E h := (E.rangeHeader_perm 1 _).mem_iff.mp hz
      obtain ⟨x, hx, h2, h1⟩ := normalizeHeaders_mem E h z hz'
      unfold entryWrite at hw
      split_ifs at hw with hp
      cases hv : z.2 with
      | nil => simp [hv] at hw
      | cons w0 ws =>
        simp only [hv, Option.some.injEq] at hw
        have hpx : hasExtPrefix x.1 = true := by
          rcases h1 with h1 | h1
          · rw [← h1]; exact hp
          · rw [← hasExtPrefix_canonical, ← h1]; exact hp
        refine ⟨x, hx, hpx, ?_, w0, by rw [h2, hv]; rfl, by rw [← hw]⟩
        rcases h1 with h1 | h1
        · left; rw [← hw, h1]
        · right; rw [← hw, h1]
  · intro hnone
    have hw : writeAll (entryWrite E) (E.rangeHeader 1 (normalizeHeaders E h)) [] = [] := by
      apply writeAll_none
      intro y hy
      have hy' : y ∈ normalizeHeaders E h := (E.rangeHeader_perm 1 _).mem_iff.mp hy
      obtain ⟨x, hx, _, h1, _⟩ := normalizeHeaders_fold E h y hy'
      have hp : hasExtPrefix y.1 = false := by
        rw [hasExtPrefix_of_fold x.1 y.1 h1]; exact hnone x hx
      simp [entryWrite, hp]
    simp [hw]

/-- C10, amended, at the mapping `Content-Type: application/json`,
`CE-X-Foo: 42`, `ce-x-bar: zz`: the extension `Foo` is the number 42 and the
extension `bar` the string `zz`, which is not valid JSON. -/
theorem fromHeaders_extensions_witness :
    ∃ ec ext, fromHeaders sampleEnv ⟨.BinaryV01⟩
        [(hdrContentType, [applicationJSON]), ("CE-X-Foo".toList, ["42".toList]),
          ("ce-x-bar".toList, ["zz".toList])] = .ok ec ∧
      ec.Extensions = some ext ∧
      GoMap.get ext "Foo".toList = some (sampleNumber 42) ∧
      GoMap.get ext "bar".toList = some (.string "zz".toList) := by
  obtain ⟨ec, hok, hall, _, _⟩ := fromHeaders_extensions sampleEnv ⟨.BinaryV01⟩
    [(hdrContentType, [applicationJSON]), ("CE-X-Foo".toList, ["42".toList]),
      ("ce-x-bar".toList, ["zz".toList])]
    (by decide) (by decide)
  obtain ⟨ext, hext, hfoo, _⟩ := hall "CE-X-Foo".toList "42".toList []
    (by decide) (by decide) (by decide)
  obtain ⟨ext', hext', _, hbar⟩ := hall "ce-x-bar".toList "zz".toList []
    (by decide) (by decide) (by decide)
  have hee : ext' = ext := by
    rw [hext] at hext'
    simp only [Option.some.injEq] at hext'
    exact hext'.symm
  rw [hee] at hbar
  exact ⟨ec, ext, hok, hext, hfoo (sampleNumber 42) rfl, hbar "invalid".toList rfl⟩

/-! ## Binary round trip -/

/-- C1, refuted as stated: the sample event declaring content type
`text/plain` is encoded in binary mode to a message that `Decode` rejects with
the unknown-encoding error. -/
theorem binary_round_trip_counterexample :
    ∃ m, Encode sampleEnv ⟨.BinaryV01⟩ (sampleEvent "text/plain".toList none)
        = .ok (.http m) ∧
      sampleEnv.messageVersion (.http m) = sampleEnv.CloudEventsVersionV01 ∧
      Header.Get m.Header hdrContentType = "text/plain".toList ∧
      Decode sampleEnv ⟨.BinaryV01⟩ (.http m) = .error .unknownMessageEncoding :=
  ⟨_, rfl, by decide, by decide, rfl⟩

/-- The round trip through the binary encoding for a declared content type
that is empty or `application/json`. -/
theorem encodeBinary_decode (E : Env) (v w : CodecV01) (e : E.Evt) (msg : E.Msg)
    (hmode : v.Encoding = Encoding.Default ∨ v.Encoding = Encoding.BinaryV01)
    (hext : (E.AsV01 e.Context).Extensions.getD [] = [])
    (hver : (E.AsV01 e.Context).CloudEventsVersion = E.CloudEventsVersionV01)
    (hsrc : E.ParseURLRef (E.urlString (E.AsV01 e.Context).Source)
      = some (E.AsV01 e.Context).Source)
    (hct : (E.AsV01 e.Context).ContentType = [] ∨
      (E.AsV01 e.Context).ContentType = applicationJSON)
    (henc : Encode E v e = .ok msg)
    (hdecl : E.messageVersion msg = (E.AsV01 e.Context).CloudEventsVersion) :
    ∃ ev dec, Decode E w msg = .ok ev ∧ ev.Context = E.ofV01 dec ∧
      dec.CloudEventsVersion = (E.AsV01 e.Context).CloudEventsVersion ∧
      dec.EventID = (E.AsV01 e.Context).EventID ∧
      dec.EventType = (E.AsV01 e.Context).EventType ∧
      dec.Source = (E.AsV01 e.Context).Source := by
  have hbin : encodeBinary E v e = .ok msg := by
    rcases hmode with h | h <;> simpa [Encode, h] using henc
  unfold encodeBinary at hbin
  rw [toHeaders_no_extensions E v _ hext] at hbin
  simp only [bind, Except.bind, pure, Except.pure] at hbin
  cases hb : liftLib (E.marshalEventData (E.DataContentType e.Context) e.Data) with
  | error err => simp [hb] at hbin
  | ok body =>
    simp only [hb, Except.ok.injEq] at hbin
    subst hbin
    have hctype : Header.Get (attributeHeaders E v (E.AsV01 e.Context)) hdrContentType
        = applicationJSON := by
      have hg := attributeHeaders_contentType E v (E.AsV01 e.Context) hmode
      rcases hct with h | h <;> simp [Header.Get, canonical_hdrContentType, hg, h]
    have hinsp : inspectEncoding E w
        (.http { Header := attributeHeaders E v (E.AsV01 e.Context), Body := body })
        = Encoding.BinaryV01 := by
      simp [inspectEncoding, hdecl, hver, hctype]
    have hfrom := fromHeaders_eq E w (attributeHeaders E v (E.AsV01 e.Context))
      (fun kv hkv => (attributeHeaders_names E v _ kv hkv).1)
      (fun kv hkv hp => by
        rw [(attributeHeaders_names E v _ kv hkv).2] at hp
        cases hp)
    obtain ⟨f1, f2, f3, f4⟩ := attributeHeaders_fixed E v (E.AsV01 e.Context)
    have g1 := normalizeHeaders_attribute E v (E.AsV01 e.Context) hdrCloudEventsVersion _
      (GoMap.mem_of_get _ _ _ f1) (by decide)
      (fun x hx => (attributeHeaders_only E v _ x hx).1)
    have g2 := normalizeHeaders_attribute E v (E.AsV01 e.Context) hdrEventID _
      (GoMap.mem_of_get _ _ _ f2) (by decide)
      (fun x hx => (attributeHeaders_only E v _ x hx).2.1)
    have g3 := normalizeHeaders_attribute E v (E.AsV01 e.Context) hdrEventType _
      (GoMap.mem_of_get _ _ _ f3) (by decide)
      (fun x hx => (attributeHeaders_only E v _ x hx).2.2.1)
    have g4 := normalizeHeaders_attribute E v (E.AsV01 e.Context) hdrSource _
      (GoMap.mem_of_get _ _ _ f4) (by decide)
      (fun x hx => (attributeHeaders_only E v _ x hx).2.2.2)
    obtain ⟨dec, hdec, d1, d2, d3, d4⟩ : ∃ dec : E.Ctx,
        fromHeaders E w (attributeHeaders E v (E.AsV01 e.Context)) = .ok dec ∧
        dec.CloudEventsVersion = Header.Get
          (normalizeHeaders E (attributeHeaders E v (E.AsV01 e.Context))) hdrCloudEventsVersion ∧
        dec.EventID = Header.Get
          (normalizeHeaders E (attributeHeaders E v (E.AsV01 e.Context))) hdrEventID ∧
        dec.EventType = Header.Get
          (normalizeHeaders E (attributeHeaders E v (E.AsV01 e.Context))) hdrEventType ∧
        dec.Source = (E.ParseURLRef (Header.Get
          (normalizeHeaders E (attributeHeaders E v (E.AsV01 e.Context))) hdrSource)).getD
            E.zeroURLRef :=
      ⟨_, hfrom, rfl, rfl, rfl, rfl⟩
    refine ⟨{ Context := E.ofV01 dec,
              Data := if 0 < ByteSlice.len body then .bytes (body.getD []) else .nil },
      dec, ?_, rfl, d1.trans g1, d2.trans g2, d3.trans g3, ?_⟩
    · simp only [Decode, hinsp, decodeBinary, hdec, bind, Except.bind, pure, Except.pure]
    · rw [d4, g4, hsrc, Option.getD_some]

/-- A binary message carries a declared content type other than
`application/json` as its `Content-Type`, and is then not classified as
binary. -/
theorem encodeBinary_other_type (E : Env) (v w : CodecV01) (e : E.Evt) (msg : E.Msg)
    (hmode : v.Encoding = Encoding.Default ∨ v.Encoding = Encoding.BinaryV01)
    (henc : Encode E v e = .ok msg)
    (hne : (E.AsV01 e.Context).ContentType ≠ [])
    (hnj : (E.AsV01 e.Context).ContentType ≠ applicationJSON) :
    ∃ m : Message, msg = .http m ∧
      GoMap.get m.Header hdrContentType = some [(E.AsV01 e.Context).ContentType] ∧
      inspectEncoding E w msg ≠ Encoding.BinaryV01 ∧
      ((E.AsV01 e.Context).ContentType ≠ applicationCloudEventsJSON →
        Decode E w msg = .error .unknownMessageEncoding) := by
  have hbin : encodeBinary E v e = .ok msg := by
    rcases hmode with h | h <;> simpa [Encode, h] using henc
  unfold encodeBinary at hbin
  simp only [bind, Except.bind, pure, Except.pure] at hbin
  cases hh : toHeaders E v (E.AsV01 e.Context) with
  | error err => simp [hh] at hbin
  | ok h =>
    simp only [hh] at hbin
    cases hb : liftLib (E.marshalEventData (E.DataContentType e.Context) e.Data) with
    | error err => simp [hb] at hbin
    | ok body =>
      simp only [hb, Except.ok.injEq] at hbin
      subst hbin
      have hget : GoMap.get h hdrContentType = some [(E.AsV01 e.Context).ContentType] := by
        rw [extensionHeaders_get_other E _ _ _ hdrContentType hdrContentType_not_ext hh,
          attributeHeaders_contentType E v _ hmode, if_neg hne]
      have hG : Header.Get h hdrContentType = (E.AsV01 e.Context).ContentType := by
        simp [Header.Get, canonical_hdrContentType, hget]
      refine ⟨_, rfl, hget, ?_, ?_⟩
      · by_cases hv : E.messageVersion
            (.http { Header := h, Body := body } : E.Msg) = E.CloudEventsVersionV01
        · by_cases hs : (E.AsV01 e.Context).ContentType = applicationCloudEventsJSON
          · have hd : applicationCloudEventsJSON ≠ applicationJSON := by decide
            simp [inspectEncoding, hv, hG, hs, hd]
          · simp [inspectEncoding, hv, hG, hnj, hs]
        · simp [inspectEncoding, hv]
      · intro hs
        by_cases hv : E.messageVersion
            (.http { Header := h, Body := body } : E.Msg) = E.CloudEventsVersionV01
        · simp [Decode, inspectEncoding, hv, hG, hnj, hs]
        · simp [Decode, inspectEncoding, hv]

/-- C1, amended: take a message that `Encode` produces in binary mode.  If the
event has no extensions, its V01 context carries the V01 version tag and a
source that `ParseURLRef` recovers from its `String` form, its declared
content type is empty or `application/json`, and the message declares the
version of the context, then `Decode` decodes the message without error, to
an event whose V01 context has the cloudEventsVersion, eventID, eventType and
source of the original.  If the declared content type is any other, the
message carries it as the one value of its `Content-Type`, `inspectEncoding`
does not classify the message as binary, and unless the type is
`application/cloudevents+json` `Decode` returns the unknown-encoding error. -/
theorem binary_round_trip (E : Env) (v w : CodecV01) (e : E.Evt) (msg : E.Msg)
    (hmode : v.Encoding = Encoding.Default ∨ v.Encoding = Encoding.BinaryV01)
    (henc : Encode E v e = .ok msg) :
    ((E.AsV01 e.Context).Extensions.getD [] = [] →
      (E.AsV01 e.Context).CloudEventsVersion = E.CloudEventsVersionV01 →
      E.ParseURLRef (E.urlString (E.AsV01 e.Context).Source)
        = some (E.AsV01 e.Context).Source →
      ((E.AsV01 e.Context).ContentType = [] ∨
        (E.AsV01 e.Context).ContentType = applicationJSON) →
      E.messageVersion msg = (E.AsV01 e.Context).CloudEventsVersion →
      ∃ ev dec, Decode E w msg = .ok ev ∧ ev.Context = E.ofV01 dec ∧
        dec.CloudEventsVersion = (E.AsV01 e.Context).CloudEventsVersion ∧
        dec.EventID = (E.AsV01 e.Context).EventID ∧
        dec.EventType = (E.AsV01 e.Context).EventType ∧
        dec.Source = (E.AsV01 e.Context).Source) ∧
    ((E.AsV01 e.Context).ContentType ≠ [] →
      (E.AsV01 e.Context).ContentType ≠ applicationJSON →
      ∃ m : Message, msg = .http m ∧
        GoMap.get m.Header hdrContentType = some [(E.AsV01 e.Context).ContentType] ∧
        inspectEncoding E w msg ≠ Encoding.BinaryV01 ∧
        ((E.AsV01 e.Context).ContentType ≠ applicationCloudEventsJSON →
          Decode E w msg = .error .unknownMessageEncoding)) :=
  ⟨fun hext hver hsrc hct hdecl =>
      encodeBinary_decode E v w e msg hmode hext hver hsrc hct henc hdecl,
    fun hne hnj => encodeBinary_other_type E v w e msg hmode henc hne hnj⟩

/-- C1, amended, at the sample event without declared content type, which
is decoded to its identifier and source, and at the sample event declaring
`text/xml`, which `Decode` rejects. -/
theorem binary_round_trip_witness :
    (∃ ev, (Encode sampleEnv ⟨.BinaryV01⟩ (sampleEvent [] none)).bind
        (Decode sampleEnv ⟨.BinaryV01⟩) = .ok ev ∧
      (sampleEnv.AsV01 ev.Context).EventID = "1".toList ∧
      (sampleEnv.AsV01 ev.Context).Source = "/s".toList) ∧
    (Encode sampleEnv ⟨.BinaryV01⟩ (sampleEvent "text/xml".toList none)).bind
        (Decode sampleEnv ⟨.BinaryV01⟩) = .error .unknownMessageEncoding := by
  constructor
  · obtain ⟨ev, dec, hdec, hctx, _, hid, _, hsrc⟩ :=
      (binary_round_trip sampleEnv ⟨.BinaryV01⟩ ⟨.BinaryV01⟩ (sampleEvent [] none)
        (.http ⟨attributeHeaders sampleEnv ⟨.BinaryV01⟩ (sampleContext [] none), none⟩)
        (Or.inr rfl) rfl).1 rfl rfl rfl (Or.inl rfl) (by decide)
    refine ⟨ev, hdec, ?_, ?_⟩
    · rw [hctx]; exact hid
    · rw [hctx]; exact hsrc
  · obtain ⟨m, _, _, _, hdec⟩ :=
      (binary_round_trip sampleEnv ⟨.BinaryV01⟩ ⟨.BinaryV01⟩
        (sampleEvent "text/xml".toList none)
        (.http ⟨attributeHeaders sampleEnv ⟨.BinaryV01⟩
          (sampleContext "text/xml".toList none), none⟩)
        (Or.inr rfl) rfl).2 (by decide) (by decide)
    exact hdec (by decide)

/-! ## Binary decoding -/

theorem rangeHeader_singleton (E : Env) (n : Nat) (kv : Str × List Str) :
    E.rangeHeader n [kv] = [kv] :=
  List.perm_singleton.mp (E.rangeHeader_perm n [kv])

/-- C11, the code at two failing inputs: on the header mapping `Date: Tue`
the slice `k[:5]` of `fromHeaders` is out of range, and on the mapping that
holds `Ce-X-Foo` with an empty value list the index `v[0]` is; in both cases
`fromHeaders`, and `decodeBinary` with it, panics instead of returning a
context. -/
theorem fromHeaders_panics (E : Env) (v : CodecV01) (body : ByteSlice) :
    fromHeaders E v [("Date".toList, ["Tue".toList])] = .error .sliceBounds ∧
    decodeBinary E v (.http ⟨[("Date".toList, ["Tue".toList])], body⟩)
      = .error .sliceBounds ∧
    fromHeaders E v [("Ce-X-Foo".toList, [])] = .error .indexRange ∧
    decodeBinary E v (.http ⟨[("Ce-X-Foo".toList, [])], body⟩) = .error .indexRange := by
  have n1 : normalizeHeaders E [("Date".toList, ["Tue".toList])]
      = [("Date".toList, ["Tue".toList])] := by
    rw [normalizeHeaders_eq, rangeHeader_singleton]
    rfl
  have n2 : normalizeHeaders E [("Ce-X-Foo".toList, [])] = [("Ce-X-Foo".toList, [])] := by
    rw [normalizeHeaders_eq, rangeHeader_singleton]
    rfl
  have f1 : fromHeaders E v [("Date".toList, ["Tue".toList])] = .error .sliceBounds := by
    unfold fromHeaders
    rw [n1]
    simp only [rangeHeader_singleton]
    rfl
  have f2 : fromHeaders E v [("Ce-X-Foo".toList, [])] = .error .indexRange := by
    unfold fromHeaders
    rw [n2]
    simp only [rangeHeader_singleton]
    rfl
  refine ⟨f1, ?_, f2, ?_⟩
  · simp only [decodeBinary, f1]; rfl
  · simp only [decodeBinary, f2]; rfl

/-- C13: `decodeBinary` returns an event on every HTTP message whose header
names have five bytes or more and whose marked headers have a value, and in
every event it returns `Data` is the body of the message when the body has
a length above zero, and is nil when the body is nil or empty. -/
theorem decodeBinary_data (E : Env) (v : CodecV01) (m : Message) :
    ((∀ kv ∈ m.Header, 5 ≤ byteLen kv.1) →
      (∀ kv ∈ m.Header, hasExtPrefix kv.1 = true → kv.2 ≠ []) →
      ∃ ev, decodeBinary E v (.http m) = .ok ev) ∧
    ∀ ev, decodeBinary E v (.http m) = .ok ev →
      (∀ b, m.Body = some b → b ≠ [] → ev.Data = .bytes b) ∧
      (m.Body = none ∨ m.Body = some [] → ev.Data = .nil) := by
  constructor
  · intro hlen hval
    simp only [decodeBinary, fromHeaders_eq E v m.Header hlen hval, bind, Except.bind, pure,
      Except.pure]
    exact ⟨_, rfl⟩
  · intro ev hok
    simp only [decodeBinary, bind, Except.bind, pure, Except.pure] at hok
    cases hf : fromHeaders E v m.Header with
    | error err => simp [hf] at hok
    | ok ctx =>
      simp only [hf, Except.ok.injEq] at hok
      rw [← hok]
      constructor
      · intro b hb hne
        have hpos : 0 < b.length := List.length_pos.mpr hne
        simp [hb, ByteSlice.len, hpos]
      · intro hb
        rcases hb with hb | hb <;> simp [hb, ByteSlice.len]

/-- C13 at a sample message with a body of three bytes. -/
theorem decodeBinary_data_witness :
    ∃ ev, decodeBinary sampleEnv ⟨.BinaryV01⟩
        (.http ⟨[(hdrContentType, [applicationJSON])], some [1, 2, 3]⟩) = .ok ev ∧
      ev.Data = .bytes [1, 2, 3] := by
  obtain ⟨hex, hall⟩ := decodeBinary_data sampleEnv ⟨.BinaryV01⟩
    ⟨[(hdrContentType, [applicationJSON])], some [1, 2, 3]⟩
  obtain ⟨ev, hev⟩ := hex (by decide) (by decide)
  exact ⟨ev, hev, (hall ev hev).1 [1, 2, 3] rfl (by decide)⟩

/-! ## Lemmas on the key loop of `decodeStructured` -/

theorem liftLib_bind {α β : Type} (x : Except Str α) (f : α → Except Fault β) :
    (liftLib x >>= f) = match x with
      | .ok a => f a
      | .error err => .error (.library err) := by
  cases x <;> rfl

theorem structuredKey_eq_fillSlot (E : Env) (st : StructuredState E) (kv : Str × List Nat) :
    structuredKey E st kv = fillSlot E st kv := by
  unfold structuredKey fillSlot slotOf
  by_cases h0 : kv.1 = "cloudEventsVersion".toList
  · simp only [if_pos h0]
    dsimp only [Slot.decode, Slot.read, Slot.write]
    rw [liftLib_bind]
    cases E.jsonUnmarshalString kv.2 st.1.CloudEventsVersion <;> rfl
  simp only [if_neg h0]
  by_cases h1 : kv.1 = "eventType".toList
  · simp only [if_pos h1]
    dsimp only [Slot.decode, Slot.read, Slot.write]
    rw [liftLib_bind]
    cases E.jsonUnmarshalString kv.2 st.1.EventType <;> rfl
  simp only [if_neg h1]
  by_cases h2 : kv.1 = "eventTypeVersion".toList
  · simp only [if_pos h2]
    dsimp only [Slot.decode, Slot.read, Slot.write]
    rw [liftLib_bind]
    cases E.jsonUnmarshalString kv.2 st.1.EventTypeVersion <;> rfl
  simp only [if_neg h2]
  by_cases h3 : kv.1 = "eventID".toList
  · simp only [if_pos h3]
    dsimp only [Slot.decode, Slot.read, Slot.write]
    rw [liftLib_bind]
    cases E.jsonUnmarshalString kv.2 st.1.EventID <;> rfl
  simp only [if_neg h3]
  by_cases h4 : kv.1 = "source".toList
  · simp only [if_pos h4]
    dsimp only [Slot.decode, Slot.read, Slot.write]
    rw [liftLib_bind]
    cases E.jsonUnmarshalString kv.2 [] with
    | error err => rfl
    | ok src => cases h : E.ParseURLRef src <;> simp only [h] <;> rfl
  simp only [if_neg h4]
  by_cases h5 : kv.1 = "schemaURL".toList
  · simp only [if_pos h5]
    dsimp only [Slot.decode, Slot.read, Slot.write]
    rw [liftLib_bind]
    cases E.jsonUnmarshalString kv.2 [] <;> rfl
  simp only [if_neg h5]
  by_cases h6 : kv.1 = "contentType".toList
  · simp only [if_pos h6]
    dsimp only [Slot.decode, Slot.read, Slot.write]
    rw [liftLib_bind]
    cases E.jsonUnmarshalString kv.2 st.1.ContentType <;> rfl
  simp only [if_neg h6]
  by_cases h7 : kv.1 = "eventTime".toList
  · simp only [if_pos h7]
    dsimp only [Slot.decode, Slot.read, Slot.write]
    rw [liftLib_bind]
    cases E.jsonUnmarshalString kv.2 [] <;> rfl
  simp only [if_neg h7]
  by_cases h8 : kv.1 = "data".toList
  · simp only [if_pos h8]
    rfl
  simp only [if_neg h8]
  by_cases h9 : kv.1 = "extensions".toList
  · simp only [if_pos h9]
    dsimp only [Slot.decode, Slot.read, Slot.write]
    rw [liftLib_bind]
    cases E.jsonUnmarshalExtensions kv.2 st.1.Extensions <;> rfl
  simp only [if_neg h9]
  rfl

theorem slotOf_key (k : Str) (s : Slot) (h : slotOf k = some s) : k = s.key := by
  unfold slotOf at h
  by_cases h0 : k = "cloudEventsVersion".toList
  · simp only [if_pos h0, Option.some.injEq] at h
    rw [← h]; exact h0
  simp only [if_neg h0] at h
  by_cases h1 : k = "eventType".toList
  · simp only [if_pos h1, Option.some.injEq] at h
    rw [← h]; exact h1
  simp only [if_neg h1] at h
  by_cases h2 : k = "eventTypeVersion".toList
  · simp only [if_pos h2, Option.some.injEq] at h
    rw [← h]; exact h2
  simp only [if_neg h2] at h
  by_cases h3 : k = "eventID".toList
  · simp only [if_pos h3, Option.some.injEq] at h
    rw [← h]; exact h3
  simp only [if_neg h3] at h
  by_cases h4 : k = "source".toList
  · simp only [if_pos h4, Option.some.injEq] at h
    rw [← h]; exact h4
  simp only [if_neg h4] at h
  by_cases h5 : k = "schemaURL".toList
  · simp only [if_pos h5, Option.some.injEq] at h
    rw [← h]; exact h5
  simp only [if_neg h5] at h
  by_cases h6 : k = "contentType".toList
  · simp only [if_pos h6, Option.some.injEq] at h
    rw [← h]; exact h6
  simp only [if_neg h6] at h
  by_cases h7 : k = "eventTime".toList
  · simp only [if_pos h7, Option.some.injEq] at h
    rw [← h]; exact h7
  simp only [if_neg h7] at h
  by_cases h8 : k = "data".toList
  · simp only [if_pos h8, Option.some.injEq] at h
    rw [← h]; exact h8
  simp only [if_neg h8] at h
  by_cases h9 : k = "extensions".toList
  · simp only [if_pos h9, Option.some.injEq] at h
    rw [← h]; exact h9
  simp only [if_neg h9] at h
  cases h

theorem slotOf_unknown (k : Str) (h : k ∉ knownKeys) : slotOf k = none := by
  unfold slotOf
  simp only [knownKeys, List.mem_cons, List.mem_singleton, List.not_mem_nil, not_or, or_false] at h
  obtain ⟨h0, h1, h2, h3, h4, h5, h6, h7, h8, h9⟩ := h
  simp only [if_neg h0, if_neg h1, if_neg h2, if_neg h3, if_neg h4, if_neg h5, if_neg h6, if_neg h7, if_neg h8, if_neg h9]

theorem Slot.read_write_ne (E : Env) (s t : Slot) (hst : s ≠ t) (x : s.Holds E)
    (st : StructuredState E) : Slot.read E t (Slot.write E s x st) = Slot.read E t st := by
  cases s <;> cases t <;> first | exact absurd rfl hst | rfl

theorem Slot.write_comm (E : Env) (s t : Slot) (hst : s ≠ t) (x : s.Holds E) (y : t.Holds E)
    (st : StructuredState E) :
    Slot.write E s x (Slot.write E t y st) = Slot.write E t y (Slot.write E s x st) := by
  cases s <;> cases t <;> first | exact absurd rfl hst | rfl

/-- A turn on a key outside the known set leaves the state as it is. -/
theorem fillSlot_unknown (E : Env) (st : StructuredState E) (kv : Str × List Nat)
    (h : slotOf kv.1 = none) : fillSlot E st kv = .ok st := by
  simp [fillSlot, h]

theorem fillSlot_ok (E : Env) (st r : StructuredState E) (kv : Str × List Nat) (s : Slot)
    (hs : slotOf kv.1 = some s) (h : fillSlot E st kv = .ok r) :
    ∃ x, Slot.decode E s kv.2 (Slot.read E s st) = .ok x ∧ r = Slot.write E s x st := by
  simp only [fillSlot, hs] at h
  cases hd : Slot.decode E s kv.2 (Slot.read E s st) with
  | error err => simp [hd] at h
  | ok x =>
    simp only [hd, Except.ok.injEq] at h
    exact ⟨x, rfl, h.symm⟩

/-- Two turns on different keys give the same state in either order, when
they succeed. -/
theorem fillSlot_comm (E : Env) (a b : Str × List Nat) (hab : a.1 ≠ b.1)
    (st s₁ r : StructuredState E) (h1 : fillSlot E st a = .ok s₁)
    (h2 : fillSlot E s₁ b = .ok r) :
    ∃ s₂, fillSlot E st b = .ok s₂ ∧ fillSlot E s₂ a = .ok r := by
  cases ha : slotOf a.1 with
  | none =>
    rw [fillSlot_unknown E st a ha] at h1
    simp only [Except.ok.injEq] at h1
    subst h1
    exact ⟨r, h2, fillSlot_unknown E r a ha⟩
  | some s =>
    cases hb : slotOf b.1 with
    | none =>
      rw [fillSlot_unknown E s₁ b hb] at h2
      simp only [Except.ok.injEq] at h2
      subst h2
      exact ⟨st, fillSlot_unknown E st b hb, h1⟩
    | some t =>
      have hst : s ≠ t := by
        intro heq
        apply hab
        rw [slotOf_key _ _ ha, slotOf_key _ _ hb, heq]
      obtain ⟨x, hx, rfl⟩ := fillSlot_ok E st s₁ a s ha h1
      obtain ⟨y, hy, rfl⟩ := fillSlot_ok E _ r b t hb h2
      rw [Slot.read_write_ne E s t hst] at hy
      refine ⟨Slot.write E t y st, ?_, ?_⟩
      · simp [fillSlot, hb, hy]
      · simp [fillSlot, ha, Slot.read_write_ne E t s (Ne.symm hst), hx,
          Slot.write_comm E s t hst]

theorem structuredLoop_eq (E : Env) (l : List (Str × List Nat)) (st : StructuredState E) :
    l.foldlM (structuredKey E) st = l.foldlM (fillSlot E) st := by
  congr 1
  funext a b
  exact structuredKey_eq_fillSlot E a b

/-- The key loop, when it ends without error, ends in the same state in
whatever order it visits a map. -/
theorem fillSlot_perm (E : Env) (l l' : List (Str × List Nat)) (hp : l.Perm l') :
    (l.map Prod.fst).Nodup → ∀ st r, l.foldlM (fillSlot E) st = .ok r →
      l'.foldlM (fillSlot E) st = .ok r := by
  induction hp with
  | nil => intro _ st r h; exact h
  | cons x _ ih =>
    intro hnd st r h
    simp only [List.map_cons, List.nodup_cons] at hnd
    simp only [List.foldlM_cons, bind, Except.bind] at h ⊢
    cases hs : fillSlot E st x with
    | error err => simp [hs] at h
    | ok s₁ =>
      simp only [hs] at h ⊢
      exact ih hnd.2 s₁ r h
  | swap x y l =>
    intro hnd st r h
    simp only [List.map_cons, List.nodup_cons, List.mem_cons, not_or] at hnd
    simp only [List.foldlM_cons, bind, Except.bind] at h ⊢
    cases hs : fillSlot E st y with
    | error err => simp [hs] at h
    | ok s₁ =>
      simp only [hs] at h
      cases hs2 : fillSlot E s₁ x with
      | error err => simp [hs2] at h
      | ok s₂ =>
        simp only [hs2] at h
        obtain ⟨s₃, h3, h4⟩ := fillSlot_comm E y x hnd.1.1 st s₁ s₂ hs hs2
        simp only [h3, h4]
        exact h
  | trans hp1 _ ih1 ih2 =>
    intro hnd st r h
    exact ih2 ((hp1.map Prod.fst).nodup_iff.mp hnd) st r (ih1 hnd st r h)

/-- Entries under a key outside the known set can be left out of the loop. -/
theorem fillSlot_filter (E : Env) (k : Str) (hk : slotOf k = none)
    (l : List (Str × List Nat)) (st : StructuredState E) :
    l.foldlM (fillSlot E) st
      = (l.filter (fun kv => decide (kv.1 ≠ k))).foldlM (fillSlot E) st := by
  induction l generalizing st with
  | nil => rfl
  | cons x l ih =>
    by_cases hx : x.1 = k
    · have hf : fillSlot E st x = .ok st := fillSlot_unknown E st x (by rw [hx]; exact hk)
      simp only [List.foldlM_cons, bind, Except.bind, hf]
      rw [List.filter_cons_of_neg (by simp [hx])]
      exact ih st
    · rw [List.filter_cons_of_pos (by simp [hx])]
      simp only [List.foldlM_cons, bind, Except.bind]
      cases fillSlot E st x with
      | error err => rfl
      | ok s₁ => exact ih s₁

theorem decodeStructured_ok_iff (E : Env) (v : CodecV01) (m : Message)
    (raw : GoMap (List Nat)) (hraw : E.jsonUnmarshalRaw m.Body = .ok raw) (ev : E.Evt) :
    decodeStructured E v (.http m) = .ok ev ↔
      ∃ st, (E.rangeRaw raw).foldlM (fillSlot E) (zeroContext E, Dyn.nil) = .ok st ∧
        ev = { Context := E.ofV01 st.1, Data := st.2 } := by
  simp only [decodeStructured, hraw, liftLib, bind, Except.bind, pure, Except.pure,
    structuredLoop_eq]
  cases (E.rangeRaw raw).foldlM (fillSlot E) (zeroContext E, Dyn.nil) with
  | error err => simp
  | ok st =>
    simp only [Except.ok.injEq]
    constructor
    · intro h; exact ⟨st, rfl, h.symm⟩
    · rintro ⟨st', h1, h2⟩; rw [h2, h1]

theorem Slot.key_data (s : Slot) (h : s.key = "data".toList) : s = .data := by
  cases s <;> first | rfl | (exact absurd h (by decide))

theorem slotOf_data : slotOf "data".toList = some .data := by decide

/-- What a turn of the key loop does to the data: the raw fragment under the
key `data`, no change under any other key. -/
theorem fillSlot_data (E : Env) (st s₁ : StructuredState E) (kv : Str × List Nat)
    (h : fillSlot E st kv = .ok s₁) :
    (kv.1 = "data".toList → s₁.2 = .bytes kv.2) ∧ (kv.1 ≠ "data".toList → s₁.2 = st.2) := by
  cases hs : slotOf kv.1 with
  | none =>
    rw [fillSlot_unknown E st kv hs] at h
    simp only [Except.ok.injEq] at h
    subst h
    refine ⟨?_, fun _ => rfl⟩
    intro hk
    rw [hk, slotOf_data] at hs
    cases hs
  | some s =>
    obtain ⟨x, hx, rfl⟩ := fillSlot_ok E st s₁ kv s hs h
    constructor
    · intro hk
      rw [hk, slotOf_data] at hs
      simp only [Option.some.injEq] at hs
      subst hs
      simp only [Slot.decode, Except.ok.injEq] at hx
      rw [← hx]
      rfl
    · intro hk
      have hne : s ≠ .data := by
        intro heq
        apply hk
        rw [slotOf_key _ _ hs, heq]
        rfl
      exact Slot.read_write_ne E s .data hne x st

theorem fillSlot_loop_data (E : Env) (l : List (Str × List Nat)) :
    (l.map Prod.fst).Nodup → ∀ st r, l.foldlM (fillSlot E) st = .ok r →
      (∀ frag, ("data".toList, frag) ∈ l → r.2 = .bytes frag) ∧
      ((∀ kv ∈ l, kv.1 ≠ "data".toList) → r.2 = st.2) := by
  induction l with
  | nil =>
    intro _ st r h
    simp only [List.foldlM_nil, pure, Except.pure, Except.ok.injEq] at h
    subst h
    exact ⟨fun frag hf => (by cases hf), fun _ => rfl⟩
  | cons x l ih =>
    intro hnd st r h
    simp only [List.map_cons, List.nodup_cons] at hnd
    simp only [List.foldlM_cons, bind, Except.bind] at h
    cases hs : fillSlot E st x with
    | error err => simp [hs] at h
    | ok s₁ =>
      simp only [hs] at h
      obtain ⟨ih1, ih2⟩ := ih hnd.2 s₁ r h
      obtain ⟨d1, d2⟩ := fillSlot_data E st s₁ x hs
      constructor
      · intro frag hf
        rcases List.mem_cons.mp hf with hx | hx
        · have hrest : ∀ kv ∈ l, kv.1 ≠ "data".toList := by
            intro kv hkv hk
            apply hnd.1
            rw [← hx]
            exact List.mem_map.mpr ⟨kv, hkv, hk⟩
          rw [ih2 hrest, d1 (by rw [← hx]), ← hx]
        · exact ih1 frag hx
      · intro hno
        rw [ih2 (fun kv hkv => hno kv (List.mem_cons_of_mem _ hkv)),
          d2 (hno x (List.mem_cons_self _ _))]

/-! ## Structured decoding -/

/-- C14: two bodies whose JSON objects have the same entries under every key
other than one key outside the known set decode alike: when
`decodeStructured` decodes the one successfully, it decodes the other
successfully and to the same event, whatever the order in which the keys are
visited. -/
theorem decodeStructured_unknown_key (E : Env) (v : CodecV01) (m m' : Message)
    (raw raw' : GoMap (List Nat)) (k : Str) (ev : E.Evt)
    (hk : k ∉ knownKeys)
    (hraw : E.jsonUnmarshalRaw m.Body = .ok raw)
    (hraw' : E.jsonUnmarshalRaw m'.Body = .ok raw')
    (hnd : (raw.map Prod.fst).Nodup) (hnd' : (raw'.map Prod.fst).Nodup)
    (hsame : ∀ kv : Str × List Nat, kv.1 ≠ k → (kv ∈ raw' ↔ kv ∈ raw))
    (hok : decodeStructured E v (.http m) = .ok ev) :
    decodeStructured E v (.http m') = .ok ev := by
  obtain ⟨st, hst, hev⟩ := (decodeStructured_ok_iff E v m raw hraw ev).mp hok
  refine (decodeStructured_ok_iff E v m' raw' hraw' ev).mpr ⟨st, ?_, hev⟩
  have hunk := slotOf_unknown k hk
  rw [fillSlot_filter E k hunk] at hst ⊢
  have hkeys : (((E.rangeRaw raw).filter (fun kv => decide (kv.1 ≠ k))).map Prod.fst).Nodup :=
    ((List.filter_sublist _).map Prod.fst).nodup
      (((E.rangeRaw_perm raw).map Prod.fst).nodup_iff.mpr hnd)
  have hn1 : ((E.rangeRaw raw).filter (fun kv => decide (kv.1 ≠ k))).Nodup :=
    ((E.rangeRaw_perm raw).nodup_iff.mpr (List.Nodup.of_map _ hnd)).filter _
  have hn2 : ((E.rangeRaw raw').filter (fun kv => decide (kv.1 ≠ k))).Nodup :=
    ((E.rangeRaw_perm raw').nodup_iff.mpr (List.Nodup.of_map _ hnd')).filter _
  have hperm : ((E.rangeRaw raw).filter (fun kv => decide (kv.1 ≠ k))).Perm
      ((E.rangeRaw raw').filter (fun kv => decide (kv.1 ≠ k))) := by
    rw [List.perm_ext_iff_of_nodup hn1 hn2]
    intro kv
    simp only [List.mem_filter, decide_eq_true_eq, (E.rangeRaw_perm raw).mem_iff,
      (E.rangeRaw_perm raw').mem_iff]
    constructor
    · rintro ⟨h1, h2⟩; exact ⟨(hsame kv h2).mpr h1, h2⟩
    · rintro ⟨h1, h2⟩; exact ⟨(hsame kv h2).mp h1, h2⟩
  exact fillSlot_perm E _ _ hperm hkeys _ _ hst

/-- C14 at the object with the keys `eventID` and `data` and the same object
with the further key `comment`. -/
theorem decodeStructured_unknown_key_witness :
    decodeStructured
        (sampleRawEnv [("eventID".toList, [34, 49, 34]), ("data".toList, [52, 50])]
          [("comment".toList, [49]), ("eventID".toList, [34, 49, 34]),
            ("data".toList, [52, 50])])
        ⟨.StructuredV01⟩ (.http ⟨[], some [1]⟩)
      = .ok { Context := zeroContext sampleEnv, Data := .bytes [52, 50] } :=
  decodeStructured_unknown_key
    (sampleRawEnv [("eventID".toList, [34, 49, 34]), ("data".toList, [52, 50])]
      [("comment".toList, [49]), ("eventID".toList, [34, 49, 34]),
        ("data".toList, [52, 50])])
    ⟨.StructuredV01⟩ ⟨[], some [0]⟩ ⟨[], some [1]⟩ _ _ "comment".toList _
    (by decide) rfl rfl (by decide) (by decide)
    (by
      intro kv hkv
      simp only [List.mem_cons, List.mem_singleton, List.not_mem_nil, or_false]
      constructor
      · rintro (h | h | h)
        · exact absurd (by rw [h]) hkv
        · exact Or.inl h
        · exact Or.inr h
      · rintro (h | h)
        · exact Or.inr (Or.inl h)
        · exact Or.inr (Or.inr h))
    rfl

/-- C15: when `decodeStructured` decodes a body successfully, the `Data` of
the event is the raw fragment that the JSON object of the body holds under
the key `data`, as a byte slice and undecoded, and is nil when the object has
no key `data`. -/
theorem decodeStructured_data (E : Env) (v : CodecV01) (m : Message)
    (raw : GoMap (List Nat)) (ev : E.Evt)
    (hraw : E.jsonUnmarshalRaw m.Body = .ok raw)
    (hnd : (raw.map Prod.fst).Nodup)
    (hok : decodeStructured E v (.http m) = .ok ev) :
    (∀ frag, ("data".toList, frag) ∈ raw → ev.Data = .bytes frag) ∧
    ((∀ kv ∈ raw, kv.1 ≠ "data".toList) → ev.Data = .nil) := by
  obtain ⟨st, hst, hev⟩ := (decodeStructured_ok_iff E v m raw hraw ev).mp hok
  obtain ⟨h1, h2⟩ := fillSlot_loop_data E (E.rangeRaw raw)
    (((E.rangeRaw_perm raw).map Prod.fst).nodup_iff.mpr hnd) _ _ hst
  rw [hev]
  constructor
  · intro frag hf
    exact h1 frag ((E.rangeRaw_perm raw).mem_iff.mpr hf)
  · intro hno
    exact h2 (fun kv hkv => hno kv ((E.rangeRaw_perm raw).mem_iff.mp hkv))

/-- C15 at the object with the keys `eventID` and `data`, the latter holding
the fragment `42`. -/
theorem decodeStructured_data_witness :
    ∃ ev, decodeStructured
        (sampleRawEnv [("eventID".toList, [34, 49, 34]), ("data".toList, [52, 50])] [])
        ⟨.StructuredV01⟩ (.http ⟨[], some [0]⟩) = .ok ev ∧
      ev.Data = .bytes [52, 50] :=
  ⟨_, rfl,
    (decodeStructured_data
      (sampleRawEnv [("eventID".toList, [34, 49, 34]), ("data".toList, [52, 50])] [])
      ⟨.StructuredV01⟩ ⟨[], some [0]⟩ _ _ rfl (by decide) rfl).1 [52, 50] (by decide)⟩

/-! ## The tracing registry -/

theorem attributeOf_set (T : Tracing) (attributes : T.Registry) (k key : Str)
    (v : Dyn T.Value) :
    attributeOf T (GoMap.set attributes k v) key
      = if k = key then v else attributeOf T attributes key := by
  unfold attributeOf
  rw [GoMap.get_set]
  split_ifs <;> rfl

theorem traceNames_ne : traceParentName ≠ traceStateName := by decide

/-- C18: after `SetTraceParent(x)` the call `TraceParent()` returns `x`, after
a further `SetTraceParent(y)` it returns `y`; likewise for `SetTraceState` and
`TraceState`; and setting one of the two names leaves what is returned for the
other unchanged. -/
theorem registry_set_get (T : Tracing) (attributes : T.Registry) (x y : Str) :
    TraceParent T (SetTraceParent T attributes x) = x ∧
    TraceParent T (SetTraceParent T (SetTraceParent T attributes x) y) = y ∧
    TraceState T (SetTraceState T attributes x) = x ∧
    TraceState T (SetTraceState T (SetTraceState T attributes x) y) = y ∧
    TraceState T (SetTraceParent T attributes x) = TraceState T attributes ∧
    TraceParent T (SetTraceState T attributes x) = TraceParent T attributes := by
  have h1 := traceNames_ne
  have h2 := traceNames_ne.symm
  simp [TraceParent, TraceState, SetTraceParent, SetTraceState, attributeOf_set, sprintValue,
    h1, h2]

/-- C19, the code at the failing input: with no attribute ever set,
`TraceParent()` and `TraceState()` return the five characters `<nil>`, not
the empty string. -/
theorem TraceParent_never_set (T : Tracing) :
    TraceParent T [] = "<nil>".toList ∧ TraceState T [] = "<nil>".toList ∧
    TraceParent T [] ≠ [] ∧ TraceState T [] ≠ [] := by
  have hp : TraceParent T [] = "<nil>".toList := rfl
  have hs : TraceState T [] = "<nil>".toList := rfl
  refine ⟨hp, hs, ?_, ?_⟩
  · rw [hp]; decide
  · rw [hs]; decide

/-! ## Applying the registry -/

/-- The loop of `AddTracingAttributes` never writes the package variable, its
calls extend the calls made so far by a prefix of the entries to visit, the
target it leaves is the one those calls produce, only the last call can have
failed, and its error is what the loop returns. -/
theorem setExtensions_spec (T : Tracing) (attributes : T.Registry)
    (l : List (Str × Dyn T.Value)) (ec : T.Tracer) (calls : List (Str × Dyn T.Value)) :
    ∃ made : List (Str × Dyn T.Value),
      (setExtensions T attributes l ec calls).calls = calls ++ made ∧
      (setExtensions T attributes l ec calls).attributes = attributes ∧
      made <+: l ∧
      (setExtensions T attributes l ec calls).target = replay T made ec ∧
      ((setExtensions T attributes l ec calls).err = none →
        made = l ∧ ∀ r ∈ replayErrors T made ec, r = none) ∧
      (∀ e, (setExtensions T attributes l ec calls).err = some e →
        ∃ pre k v, made = pre ++ [(k, v)] ∧
          (∀ r ∈ replayErrors T pre ec, r = none) ∧
          (T.SetExtension (replay T pre ec) k v).2 = some e) := by
  induction l generalizing ec calls with
  | nil =>
    refine ⟨[], by simp [setExtensions], rfl, List.prefix_refl _, rfl, ?_, ?_⟩
    · intro _; exact ⟨rfl, by simp [replayErrors]⟩
    · intro e he; simp [setExtensions] at he
  | cons kv rest ih =>
    obtain ⟨k, v⟩ := kv
    cases hs : T.SetExtension ec k v with
    | mk ec' r =>
      cases r with
      | some err =>
        refine ⟨[(k, v)], by simp [setExtensions, hs], by simp [setExtensions, hs],
          by simp, by simp [setExtensions, hs, replay], ?_, ?_⟩
        · intro he; simp [setExtensions, hs] at he
        · intro e he
          simp only [setExtensions, hs, Option.some.injEq] at he
          refine ⟨[], k, v, rfl, by simp [replayErrors], ?_⟩
          simp [replay, hs, he]
      | none =>
        obtain ⟨made, h1, h2, h3, h4, h5, h6⟩ := ih ec' (calls ++ [(k, v)])
        have hstep : setExtensions T attributes ((k, v) :: rest) ec calls
            = setExtensions T attributes rest ec' (calls ++ [(k, v)]) := by
          simp [setExtensions, hs]
        rw [hstep]
        refine ⟨(k, v) :: made, by simp [h1], h2, ?_, ?_, ?_, ?_⟩
        · exact (List.prefix_cons_inj _).mpr h3
        · simp [replay, hs, h4]
        · intro he
          obtain ⟨hm, herr⟩ := h5 he
          refine ⟨by rw [hm], ?_⟩
          intro r hr
          simp only [replayErrors, hs, List.mem_cons] at hr
          rcases hr with hr | hr
          · exact hr
          · exact herr r hr
        · intro e he
          obtain ⟨pre, k', v', hm, hpre, hlast⟩ := h6 e he
          refine ⟨(k, v) :: pre, k', v', by simp [hm], ?_, ?_⟩
          · intro r hr
            simp only [replayErrors, hs, List.mem_cons] at hr
            rcases hr with hr | hr
            · exact hr
            · exact hpre r hr
          · simpa [replay, hs] using hlast

/-- C16: when `traceparent` is not among the attributes, `AddTracingAttributes`
makes no `SetExtension` call, leaves the target as it was and returns no
error, whatever else is registered; when it is and `SetExtension` never
fails, the `SetExtension` calls made are the registered entries in their
visiting order, each once with its stored value, the target is left as these
calls produce it, and no error is returned. -/
theorem AddTracingAttributes_gating (T : Tracing) (attributes : T.Registry)
    (ec : T.Tracer) :
    (GoMap.get attributes traceParentName = none →
      (AddTracingAttributes T attributes ec).calls = [] ∧
      (AddTracingAttributes T attributes ec).target = ec ∧
      (AddTracingAttributes T attributes ec).err = none) ∧
    (GoMap.get attributes traceParentName ≠ none →
      (∀ s k v, (T.SetExtension s k v).2 = none) →
      (AddTracingAttributes T attributes ec).calls = T.rangeAttributes attributes ∧
      (AddTracingAttributes T attributes ec).calls.Perm attributes ∧
      (AddTracingAttributes T attributes ec).target
        = replay T (T.rangeAttributes attributes) ec ∧
      (AddTracingAttributes T attributes ec).err = none) := by
  constructor
  · intro habs
    simp [AddTracingAttributes, habs]
  · intro hset hnofail
    have hsome : (GoMap.get attributes traceParentName).isSome = true :=
      Option.isSome_iff_ne_none.mpr hset
    obtain ⟨made, h1, _, _, h4, h5, h6⟩ :=
      setExtensions_spec T attributes (T.rangeAttributes attributes) ec []
    have herr : (AddTracingAttributes T attributes ec).err = none := by
      simp only [AddTracingAttributes, hsome, if_true]
      cases he : (setExtensions T attributes (T.rangeAttributes attributes) ec []).err with
      | none => rfl
      | some e =>
        obtain ⟨pre, k, v, _, _, hlast⟩ := h6 e he
        rw [hnofail] at hlast
        cases hlast
    have hcalls : (AddTracingAttributes T attributes ec).calls
        = T.rangeAttributes attributes := by
      simp only [AddTracingAttributes, hsome, if_true] at herr ⊢
      rw [h1, (h5 herr).1, List.nil_append]
    refine ⟨hcalls, ?_, ?_, herr⟩
    · rw [hcalls]
      exact T.rangeAttributes_perm attributes
    · simp only [AddTracingAttributes, hsome, if_true] at herr ⊢
      rw [h4, (h5 herr).1]

/-- C16 at a registry that holds `tracestate` only, where the target stays
empty, and at one that holds both names, where the target receives both, on
the sample target that rejects nothing. -/
theorem AddTracingAttributes_gating_witness :
    ((AddTracingAttributes (sampleTracing (fun _ => false))
        [(traceStateName, .string "s".toList)] []).calls = [] ∧
      (AddTracingAttributes (sampleTracing (fun _ => false))
        [(traceStateName, .string "s".toList)] []).target = []) ∧
    ((AddTracingAttributes (sampleTracing (fun _ => false))
        [(traceParentName, .string "p".toList), (traceStateName, .string "s".toList)]
        []).target
      = [(traceParentName, .string "p".toList), (traceStateName, .string "s".toList)] ∧
     (AddTracingAttributes (sampleTracing (fun _ => false))
        [(traceParentName, .string "p".toList), (traceStateName, .string "s".toList)]
        []).err = none) := by
  have h1 := (AddTracingAttributes_gating (sampleTracing (fun _ => false))
    [(traceStateName, .string "s".toList)] []).1 rfl
  have h2 := (AddTracingAttributes_gating (sampleTracing (fun _ => false))
    [(traceParentName, .string "p".toList), (traceStateName, .string "s".toList)]
    []).2 (Option.isSome_iff_ne_none.mp rfl) (fun _ _ _ => rfl)
  refine ⟨⟨h1.1, h1.2.1⟩, ?_, h2.2.2.2⟩
  rw [h2.2.2.1]
  rfl

/-- C17: `AddTracingAttributes` leaves the package variable as it was.  With
`traceparent` set, the calls it makes are the entries of the attributes in
their visiting order up to the first call that fails; the error it returns
is the error of that call, the last one made; the target is left as the calls
made produce it, none of them undone; and when no error is returned every
entry has been visited and no call has failed. -/
theorem AddTracingAttributes_fail_fast (T : Tracing) (attributes : T.Registry)
    (ec : T.Tracer) :
    (AddTracingAttributes T attributes ec).attributes = attributes ∧
    (GoMap.get attributes traceParentName ≠ none →
      (AddTracingAttributes T attributes ec).calls <+: T.rangeAttributes attributes ∧
      (AddTracingAttributes T attributes ec).target
        = replay T (AddTracingAttributes T attributes ec).calls ec ∧
      (∀ e, (AddTracingAttributes T attributes ec).err = some e →
        ∃ pre k v, (AddTracingAttributes T attributes ec).calls = pre ++ [(k, v)] ∧
          (∀ r ∈ replayErrors T pre ec, r = none) ∧
          (T.SetExtension (replay T pre ec) k v).2 = some e) ∧
      ((AddTracingAttributes T attributes ec).err = none →
        (AddTracingAttributes T attributes ec).calls = T.rangeAttributes attributes ∧
        ∀ r ∈ replayErrors T (AddTracingAttributes T attributes ec).calls ec, r = none)) := by
  obtain ⟨made, h1, h2, h3, h4, h5, h6⟩ :=
    setExtensions_spec T attributes (T.rangeAttributes attributes) ec []
  rw [List.nil_append] at h1
  constructor
  · unfold AddTracingAttributes
    split_ifs
    · exact h2
    · rfl
  · intro hset
    have hsome : (GoMap.get attributes traceParentName).isSome = true :=
      Option.isSome_iff_ne_none.mpr hset
    simp only [AddTracingAttributes, hsome, if_true]
    rw [h1]
    exact ⟨h3, h4, h6, h5⟩

/-- C17 on the sample target that rejects `tracestate`: the call for
`traceparent` is made and kept, the call for `tracestate` fails, the call for
the third entry is never made. -/
theorem AddTracingAttributes_fail_fast_witness :
    (AddTracingAttributes (sampleTracing (fun k => k == traceStateName))
        [(traceParentName, .string "p".toList), (traceStateName, .string "s".toList),
          ("other".toList, .string "o".toList)] []).err = some "rejected".toList ∧
    (AddTracingAttributes (sampleTracing (fun k => k == traceStateName))
        [(traceParentName, .string "p".toList), (traceStateName, .string "s".toList),
          ("other".toList, .string "o".toList)] []).target
      = replay (sampleTracing (fun k => k == traceStateName))
          [(traceParentName, .string "p".toList), (traceStateName, .string "s".toList)] [] ∧
    replay (sampleTracing (fun k => k == traceStateName))
        [(traceParentName, .string "p".toList), (traceStateName, .string "s".toList)] []
      = [(traceParentName, .string "p".toList)] := by
  have h := (AddTracingAttributes_fail_fast (sampleTracing (fun k => k == traceStateName))
    [(traceParentName, .string "p".toList), (traceStateName, .string "s".toList),
      ("other".toList, .string "o".toList)] []).2 (Option.isSome_iff_ne_none.mp rfl)
  refine ⟨rfl, ?_, rfl⟩
  rw [h.2.1]
  rfl

/-! ## Lemmas on the names of a map -/

theorem GoMap.keys_set {β : Type} (m : GoMap β) (k : Str) (v : β) :
    GoMap.keys (GoMap.set m k v)
      = if k ∈ GoMap.keys m then GoMap.keys m else GoMap.keys m ++ [k] := by
  induction m with
  | nil => simp [GoMap.set, GoMap.keys]
  | cons p m ih =>
    obtain ⟨k', v'⟩ := p
    simp only [GoMap.keys] at ih
    by_cases h : k' = k
    · subst h
      simp only [GoMap.set, GoMap.keys, if_true, List.map_cons, List.mem_cons, true_or]
    · have h' : ¬ k = k' := fun e => h e.symm
      simp only [GoMap.set, GoMap.keys, h, if_false, List.map_cons, List.mem_cons, h',
        false_or, ih]
      split_ifs <;> simp

theorem GoMap.keys_set_nodup {β : Type} (m : GoMap β) (k : Str) (v : β)
    (h : (GoMap.keys m).Nodup) : (GoMap.keys (GoMap.set m k v)).Nodup := by
  rw [GoMap.keys_set]
  split_ifs with hk
  · exact h
  · exact List.Nodup.append h (List.nodup_singleton k) (by simpa using hk)

theorem GoMap.mem_keys_set {β : Type} (m : GoMap β) (k key : Str) (v : β) :
    key ∈ GoMap.keys (GoMap.set m k v) ↔ key ∈ GoMap.keys m ∨ key = k := by
  rw [GoMap.keys_set]
  split_ifs with hk
  · constructor
    · intro h; exact Or.inl h
    · rintro (h | h)
      · exact h
      · rw [h]; exact hk
  · simp

theorem writeAll_keys_nodup {α β : Type} (w : α → Option (Str × β)) (l : List α)
    (init : GoMap β) (h : (GoMap.keys init).Nodup) :
    (GoMap.keys (writeAll w l init)).Nodup := by
  induction l generalizing init with
  | nil => exact h
  | cons x l ih =>
    rw [writeAll_cons]
    apply ih
    cases hw : w x with
    | none => exact h
    | some kv => exact GoMap.keys_set_nodup _ _ _ h

theorem writeAll_mem_keys {α β : Type} (w : α → Option (Str × β)) (l : List α)
    (init : GoMap β) (key : Str) :
    key ∈ GoMap.keys (writeAll w l init) ↔
      key ∈ GoMap.keys init ∨ ∃ x ∈ l, ∃ v, w x = some (key, v) := by
  induction l generalizing init with
  | nil => simp [writeAll_nil]
  | cons x l ih =>
    rw [writeAll_cons, ih]
    cases hw : w x with
    | none =>
      simp only [writeEntry, List.mem_cons, exists_eq_or_imp, hw]
      simp
    | some kv =>
      obtain ⟨k, v⟩ := kv
      simp only [writeEntry, GoMap.mem_keys_set, List.mem_cons, exists_eq_or_imp, hw,
        Option.some.injEq, Prod.mk.injEq]
      constructor
      · rintro ((h | h) | h)
        · exact Or.inl h
        · exact Or.inr (Or.inl ⟨v, h.symm, rfl⟩)
        · exact Or.inr (Or.inr h)
      · rintro (h | ⟨v', h, _⟩ | h)
        · exact Or.inl (Or.inl h)
        · exact Or.inl (Or.inr h.symm)
        · exact Or.inr h

theorem attributeHeaders_keys_nodup (E : Env) (v : CodecV01) (ec : E.Ctx) :
    (GoMap.keys (attributeHeaders E v ec)).Nodup := by
  rcases ec with ⟨cv, id, ty, src, et, etv, su, ct, ex⟩
  simp only [attributeHeaders, Header.Set, canonical_hdrContentType]
  rcases et with _ | t <;> rcases su with _ | u <;> dsimp only <;> split_ifs
  all_goals repeat' (first | apply GoMap.keys_set_nodup | exact List.nodup_nil)

theorem hasExtPrefix_of_take (k : Str) (h : k.take 5 = extPrefix) : hasExtPrefix k = true := by
  unfold hasExtPrefix
  rw [h]
  decide

theorem headerWrite_of_marshal (E : Env) (kv : Str × Dyn E.Value) (s : Str)
    (hs : E.jsonMarshal kv.2 = .ok s) :
    headerWrite E kv = some (extPrefix ++ Title E kv.1, [s]) := by
  simp [headerWrite, hs]

theorem headerWrite_name (E : Env) (x : Str × Dyn E.Value) (name : Str) (val : List Str)
    (h : headerWrite E x = some (name, val)) : name = extPrefix ++ Title E x.1 := by
  unfold headerWrite at h
  cases hm : E.jsonMarshal x.2 with
  | error err => simp [hm] at h
  | ok encoded =>
    simp only [hm, Option.some.injEq, Prod.mk.injEq] at h
    exact h.1.symm

/-- The marked header names that `toHeaders` returns are the title-cased
extension names behind the marker, each once. -/
theorem toHeaders_names (E : Env) (v : CodecV01) (ec : E.Ctx) (h : Header)
    (hser : ∀ kv ∈ ec.Extensions.getD [], ∃ s, E.jsonMarshal kv.2 = .ok s)
    (hok : toHeaders E v ec = .ok h) :
    (extensionHeaderNames h).Nodup ∧
    ∀ name, name ∈ extensionHeaderNames h ↔
      ∃ kv ∈ ec.Extensions.getD [], name = extPrefix ++ Title E kv.1 := by
  have hr := writeAll_of_foldlM (extensionHeader E) (headerWrite E) _ _ _
    (extensionHeader_step E) hok
  constructor
  · unfold extensionHeaderNames
    rw [hr]
    exact (writeAll_keys_nodup _ _ _ (attributeHeaders_keys_nodup E v ec)).filter _
  · intro name
    unfold extensionHeaderNames
    rw [hr]
    simp only [List.mem_filter, decide_eq_true_eq, writeAll_mem_keys]
    constructor
    · rintro ⟨hmem | ⟨x, hx, val, hw⟩, htake⟩
      · exfalso
        obtain ⟨y, hy, hy1⟩ := List.mem_map.mp hmem
        have hn := (attributeHeaders_names E v ec y hy).2
        rw [hy1, hasExtPrefix_of_take name htake] at hn
        cases hn
      · exact ⟨x, (E.rangeExtensions_perm _).mem_iff.mp hx, headerWrite_name E x name val hw⟩
    · rintro ⟨kv, hkv, hname⟩
      obtain ⟨s, hs⟩ := hser kv hkv
      refine ⟨Or.inr ⟨kv, (E.rangeExtensions_perm _).mem_iff.mpr hkv, [s], ?_⟩, ?_⟩
      · rw [hname]; exact headerWrite_of_marshal E kv s hs
      · rw [hname]; exact take_extPrefix_append _

/-- The header of an extension whose title-cased name it shares only with
entries of the same value holds the serialisation of that value. -/
theorem toHeaders_get_extension (E : Env) (v : CodecV01) (ec : E.Ctx) (h : Header)
    (hok : toHeaders E v ec = .ok h) (kv : Str × Dyn E.Value) (s : Str)
    (hkv : kv ∈ ec.Extensions.getD []) (hs : E.jsonMarshal kv.2 = .ok s)
    (huniq : ∀ x ∈ ec.Extensions.getD [], Title E x.1 = Title E kv.1 → x.2 = kv.2) :
    GoMap.get h (extPrefix ++ Title E kv.1) = some [s] := by
  rw [writeAll_of_foldlM (extensionHeader E) (headerWrite E) _ _ _
    (extensionHeader_step E) hok]
  apply writeAll_get_const
  · intro x hx val hw
    have hx' : x ∈ ec.Extensions.getD [] := (E.rangeExtensions_perm _).mem_iff.mp hx
    have hname := headerWrite_name E x _ val hw
    have hval : x.2 = kv.2 := huniq x hx' (List.append_cancel_left hname).symm
    have hsx : E.jsonMarshal x.2 = .ok s := by rw [hval]; exact hs
    rw [headerWrite_of_marshal E x s hsx] at hw
    simp only [Option.some.injEq, Prod.mk.injEq] at hw
    exact hw.2.symm
  · left
    exact ⟨kv, (E.rangeExtensions_perm _).mem_iff.mpr hkv, [s],
      headerWrite_of_marshal E kv s hs⟩

theorem writeAll_append {α β : Type} (w : α → Option (Str × β)) (l₁ l₂ : List α)
    (init : GoMap β) :
    writeAll w (l₁ ++ l₂) init = writeAll w l₂ (writeAll w l₁ init) := by
  unfold writeAll
  rw [List.foldl_append]

/-- The header of an extension holds the serialisation of its value when no
extension visited after it has the same title-cased name: of the extensions
that share a header, the one visited last is kept. -/
theorem toHeaders_get_last (E : Env) (v : CodecV01) (ec : E.Ctx) (h : Header)
    (hok : toHeaders E v ec = .ok h) (pre post : GoMap (Dyn E.Value))
    (kv : Str × Dyn E.Value) (s : Str)
    (hsplit : E.rangeExtensions (ec.Extensions.getD []) = pre ++ kv :: post)
    (hs : E.jsonMarshal kv.2 = .ok s)
    (hpost : ∀ x ∈ post, Title E x.1 ≠ Title E kv.1) :
    GoMap.get h (extPrefix ++ Title E kv.1) = some [s] := by
  rw [writeAll_of_foldlM (extensionHeader E) (headerWrite E) _ _ _
    (extensionHeader_step E) hok, hsplit, writeAll_append, writeAll_cons,
    headerWrite_of_marshal E kv s hs]
  rw [writeAll_get_other]
  · exact GoMap.get_set_self _ _ _
  · intro x hx val hw
    have hname := headerWrite_name E x _ val hw
    exact hpost x hx (List.append_cancel_left hname).symm

/-! ## Extension names -/

/-- C12, the code at the failing input: for the one extension `fooBar = 1`,
`toHeaders` writes the one marked header `CE-X-FooBar`; `fromHeaders` decodes
these headers to two extensions, `FooBar` and `Foobar`, because normalisation
has left the header under both its own and its canonical name; and
`toHeaders` on the decoded context writes the two marked headers
`CE-X-FooBar` and `CE-X-Foobar`. -/
theorem extension_round_trip_duplicates :
    ∃ h ec h₂,
      toHeaders sampleEnv ⟨.BinaryV01⟩
        (sampleContext [] (some [("fooBar".toList, sampleNumber 1)])) = .ok h ∧
      extensionHeaderNames h = ["CE-X-FooBar".toList] ∧
      fromHeaders sampleEnv ⟨.BinaryV01⟩ h = .ok ec ∧
      ec.Extensions
        = some [("FooBar".toList, sampleNumber 1), ("Foobar".toList, sampleNumber 1)] ∧
      toHeaders sampleEnv ⟨.BinaryV01⟩ ec = .ok h₂ ∧
      extensionHeaderNames h₂ = ["CE-X-FooBar".toList, "CE-X-Foobar".toList] :=
  ⟨_, _, _, rfl, by decide, rfl, rfl, rfl, by decide⟩

/-- C20, refuted as stated: the two extensions `foo = 1` and `Foo = 2` are
written to the one marked header `CE-X-Foo`, which holds the serialisation of
`Foo` alone. -/
theorem toHeaders_collision_counterexample :
    ∃ h, toHeaders sampleEnv ⟨.BinaryV01⟩
        (sampleContext [] (some [("foo".toList, sampleNumber 1), ("Foo".toList, sampleNumber 2)]))
        = .ok h ∧
      extensionHeaderNames h = ["CE-X-Foo".toList] ∧
      GoMap.get h "CE-X-Foo".toList = some ["2".toList] :=
  ⟨_, rfl, by decide, by decide⟩

/-- C20, amended: when every extension value serialises, `toHeaders` returns a
header mapping whose marked headers are the names `CE-X-` followed by
`strings.Title` of an extension name, each once; extension names with
different title-cased forms have different headers; when no two extension
names have the same title-cased form, the number of marked headers is the
number of extensions and the header of each extension holds the
serialisation of its value; and in every case the header of an extension
holds the serialisation of its value when no extension visited after it has
the same title-cased name, so that of the extensions sharing a header the one
written last is kept. -/
theorem toHeaders_extension_names (E : Env) (v : CodecV01) (ec : E.Ctx)
    (hser : ∀ kv ∈ ec.Extensions.getD [], ∃ s, E.jsonMarshal kv.2 = .ok s) :
    ∃ h, toHeaders E v ec = .ok h ∧
      (extensionHeaderNames h).Nodup ∧
      (∀ name, name ∈ extensionHeaderNames h ↔
        ∃ kv ∈ ec.Extensions.getD [], name = extPrefix ++ Title E kv.1) ∧
      (∀ a b : Str, Title E a ≠ Title E b → extPrefix ++ Title E a ≠ extPrefix ++ Title E b) ∧
      ((GoMap.keys (ec.Extensions.getD [])).Nodup →
        (∀ a ∈ GoMap.keys (ec.Extensions.getD []), ∀ b ∈ GoMap.keys (ec.Extensions.getD []),
          Title E a = Title E b → a = b) →
        (extensionHeaderNames h).length = (ec.Extensions.getD []).length ∧
        ∀ kv ∈ ec.Extensions.getD [], ∃ s, E.jsonMarshal kv.2 = .ok s ∧
          GoMap.get h (extPrefix ++ Title E kv.1) = some [s]) ∧
      (∀ pre kv post, E.rangeExtensions (ec.Extensions.getD []) = pre ++ kv :: post →
        (∀ x ∈ post, Title E x.1 ≠ Title E kv.1) →
        ∃ s, E.jsonMarshal kv.2 = .ok s ∧
          GoMap.get h (extPrefix ++ Title E kv.1) = some [s]) := by
  obtain ⟨h, hok⟩ := toHeaders_ok E v ec hser
  obtain ⟨hnd, hmem⟩ := toHeaders_names E v ec h hser hok
  refine ⟨h, hok, hnd, hmem, ?_, ?_, ?_⟩
  · intro a b hab heq
    exact hab (List.append_cancel_left heq)
  · intro hkeys hinj
    constructor
    · have hnd2 : ((GoMap.keys (ec.Extensions.getD [])).map
          (fun k => extPrefix ++ Title E k)).Nodup := by
        apply List.Nodup.map_on _ hkeys
        intro a ha b hb heq
        exact hinj a ha b hb (List.append_cancel_left heq)
      have hperm : (extensionHeaderNames h).Perm
          ((GoMap.keys (ec.Extensions.getD [])).map (fun k => extPrefix ++ Title E k)) := by
        rw [List.perm_ext_iff_of_nodup hnd hnd2]
        intro name
        rw [hmem name]
        simp only [GoMap.keys, List.mem_map, exists_exists_and_eq_and]
        constructor
        · rintro ⟨kv, hkv, hname⟩; exact ⟨kv, hkv, hname.symm⟩
        · rintro ⟨kv, hkv, hname⟩; exact ⟨kv, hkv, hname.symm⟩
      rw [hperm.length_eq]
      simp [GoMap.keys]
    · intro kv hkv
      obtain ⟨s, hs⟩ := hser kv hkv
      refine ⟨s, hs, toHeaders_get_extension E v ec h hok kv s hkv hs ?_⟩
      intro x hx htitle
      have hx1 : x.1 ∈ GoMap.keys (ec.Extensions.getD []) := List.mem_map.mpr ⟨x, hx, rfl⟩
      have hk1 : kv.1 ∈ GoMap.keys (ec.Extensions.getD []) := List.mem_map.mpr ⟨kv, hkv, rfl⟩
      have hkey : x.1 = kv.1 := hinj x.1 hx1 kv.1 hk1 htitle
      have : x = kv := List.inj_on_of_nodup_map hkeys hx hkv hkey
      rw [this]
  · intro pre kv post hsplit hpost
    have hkv : kv ∈ ec.Extensions.getD [] := by
      apply (E.rangeExtensions_perm _).mem_iff.mp
      rw [hsplit]
      simp
    obtain ⟨s, hs⟩ := hser kv hkv
    exact ⟨s, hs, toHeaders_get_last E v ec h hok pre post kv s hsplit hs hpost⟩

/-- C20, amended, at the two extensions `foo = 1` and `bar = 2`, which get
two marked headers, and at the two extensions `foo = 1` and `Foo = 2`, visited
in this order, whose shared header holds the serialisation of the second. -/
theorem toHeaders_extension_names_witness :
    (∃ h, toHeaders sampleEnv ⟨.BinaryV01⟩
        (sampleContext [] (some [("foo".toList, sampleNumber 1), ("bar".toList, sampleNumber 2)]))
        = .ok h ∧
      (extensionHeaderNames h).length = 2) ∧
    (∃ h, toHeaders sampleEnv ⟨.BinaryV01⟩
        (sampleContext [] (some [("foo".toList, sampleNumber 1), ("Foo".toList, sampleNumber 2)]))
        = .ok h ∧
      GoMap.get h (extPrefix ++ Title sampleEnv "Foo".toList) = some ["2".toList]) := by
  constructor
  · obtain ⟨h, hok, _, _, _, hcount, _⟩ := toHeaders_extension_names sampleEnv ⟨.BinaryV01⟩
      (sampleContext [] (some [("foo".toList, sampleNumber 1), ("bar".toList, sampleNumber 2)]))
      (by
        intro kv hkv
        simp only [sampleContext, Option.getD_some, List.mem_cons, List.mem_singleton,
          List.not_mem_nil, or_false] at hkv
        rcases hkv with hkv | hkv <;> rw [hkv]
        · exact ⟨"1".toList, rfl⟩
        · exact ⟨"2".toList, rfl⟩)
    exact ⟨h, hok, (hcount (by decide) (by decide)).1⟩
  · obtain ⟨h, hok, _, _, _, _, hlast⟩ := toHeaders_extension_names sampleEnv ⟨.BinaryV01⟩
      (sampleContext [] (some [("foo".toList, sampleNumber 1), ("Foo".toList, sampleNumber 2)]))
      (by
        intro kv hkv
        simp only [sampleContext, Option.getD_some, List.mem_cons, List.mem_singleton,
          List.not_mem_nil, or_false] at hkv
        rcases hkv with hkv | hkv <;> rw [hkv]
        · exact ⟨"1".toList, rfl⟩
        · exact ⟨"2".toList, rfl⟩)
    obtain ⟨s, hs, hget⟩ := hlast [("foo".toList, sampleNumber 1)]
      ("Foo".toList, sampleNumber 2) [] rfl (by intro x hx; cases hx)
    have hs' : s = "2".toList := by
      have h2 : sampleEnv.jsonMarshal (sampleNumber 2) = .ok "2".toList := rfl
      rw [h2] at hs
      simp only [Except.ok.injEq] at hs
      exact hs.symm
    rw [hs'] at hget
    exact ⟨h, hok, hget⟩

end CloudEvents
